import Mathlib

/-!
Verification of the imapfs core against its specification.

The development is a shallow embedding of the Python 2 sources
(`imapfs/imapenc.py`, `imapfs/imapconnection.py`, `imapfs/message.py`,
`imapfs/file.py`, `imapfs/directory.py`, `imapfs/fs.py`).

Modelling conventions, applied uniformly:
- byte strings / bytearrays are `List Nat` (each entry a byte value);
- the opaque 128-bit identifiers produced by `uuid.uuid4()` are modelled as
  naturals drawn from a monotone fresh-name supply threaded through the
  mail-store connection; the root identifier is `0`;
- Python 2 dicts are association lists in insertion order; `dict.items()` /
  `dict.values()` (which copy in Python 2) become plain list folds, and the
  Python 2 "dictionary changed size during iteration" RuntimeError raised
  when a dict is mutated during a `for k in d` loop is modelled explicitly
  where the source does exactly that (`File.truncate`);
- the mail store holds the decoded plaintext of each message: the IMAP
  client encrypts on `put_message` and decrypts on `get_message` with the
  same codec, whose round trip is proved separately on the codec itself;
- file offsets and sizes are `Nat`: the FUSE bridge only ever hands the
  handlers non-negative offsets, and the few places where cPython would
  transiently compute a negative intermediate (a read clamped past EOF)
  are mirrored via an `Int` intermediate where the behaviour differs;
- raised Python exceptions are an explicit error value carried next to the
  mutated state (Python object state survives a raise).
-/

namespace Imapfs

abbrev Bytes := List Nat

/-- Byte encoding of a decimal numeral, for the `"%d"` / `"%s"` fields of the
stored body formats. -/
def natBytes (n : Nat) : Bytes := (Nat.repr n).data.map Char.toNat

/-- Byte encoding of a filename component. -/
def strBytes (s : String) : Bytes := s.data.map Char.toNat

/-! ## Envelope codec (`imapenc.py`)

`AES.new`/`get_random_bytes`/base64 are external primitives: the AES-CBC
cipher and the base64 codec are taken as function parameters, and the fresh
random IV of `IMAPEnc.encrypt` is passed in explicitly.  The padding logic,
which is the part the spec specifies exactly, is translated verbatim. -/

def AES_BLOCK_SIZE : Nat := 16

namespace IMAPEnc

/-- The pad length computed by `IMAPEnc.pad` (imapenc.py:49-51):
`plain_len = len(data) + 1`;
`padded_len = plain_len / 16 * 16 + (16 if plain_len % 16 > 0 else 0)`;
`pad_len = padded_len - len(data)` (Python 2 `/` on ints is floor division). -/
def padAmount (l : Nat) : Nat :=
  let plainLen := l + 1
  let paddedLen := plainLen / AES_BLOCK_SIZE * AES_BLOCK_SIZE +
    (if plainLen % AES_BLOCK_SIZE > 0 then AES_BLOCK_SIZE else 0)
  paddedLen - l

/-- `IMAPEnc.pad` (imapenc.py:46-53): `data + chr(pad_len) * pad_len`. -/
def pad (data : Bytes) : Bytes :=
  data ++ List.replicate (padAmount data.length) (padAmount data.length)

/-- `IMAPEnc.unpad` (imapenc.py:55-59): `pad_len = ord(data[-1])` (IndexError
on empty input, modelled as `none`); `data[:-pad_len]` — note that for
`pad_len = 0` the Python slice `data[:-0]` is `data[:0] = ""`. -/
def unpad (data : Bytes) : Option Bytes :=
  match data.getLast? with
  | none => none
  | some padLen =>
      some (if padLen = 0 then [] else data.take (data.length - padLen))

/-- `IMAPEnc.encrypt` (imapenc.py:71-76): `iv + aes.encrypt(data)` with a
fresh 16-byte `iv`; the cipher is the parameter `aesE`. -/
def encrypt (aesE : Bytes → Bytes → Bytes) (iv data : Bytes) : Bytes :=
  iv ++ aesE iv data

/-- `IMAPEnc.decrypt` (imapenc.py:78-84): split off the IV, decrypt the rest. -/
def decrypt (aesD : Bytes → Bytes → Bytes) (data : Bytes) : Bytes :=
  aesD (data.take AES_BLOCK_SIZE) (data.drop AES_BLOCK_SIZE)

/-- `IMAPEnc.encrypt_message` (imapenc.py:86-89):
`encode(encrypt(pad(data)))`. -/
def encrypt_message (aesE : Bytes → Bytes → Bytes) (b64e : Bytes → Bytes)
    (iv data : Bytes) : Bytes :=
  b64e (encrypt aesE iv (pad data))

/-- `IMAPEnc.decrypt_message` (imapenc.py:91-94):
`unpad(decrypt(decode(data)))`. -/
def decrypt_message (aesD : Bytes → Bytes → Bytes) (b64d : Bytes → Bytes)
    (data : Bytes) : Option Bytes :=
  unpad (decrypt aesD (b64d data))

end IMAPEnc

theorem padAmount_eq (l : Nat) : IMAPEnc.padAmount l = 16 - l % 16 := by
  have h1 := Nat.div_add_mod (l + 1) 16
  have h2 : (l + 1) % 16 < 16 := Nat.mod_lt _ (by omega)
  have h3 := Nat.div_add_mod l 16
  have h4 : l % 16 < 16 := Nat.mod_lt _ (by omega)
  unfold IMAPEnc.padAmount AES_BLOCK_SIZE
  simp only []
  split <;> omega

theorem getLast?_replicate_self (n : Nat) (h : 1 ≤ n) :
    (List.replicate n n).getLast? = some n := by
  cases n with
  | zero => omega
  | succ k =>
      have : List.replicate (k + 1) (k + 1) =
          List.replicate k (k + 1) ++ [k + 1] := by
        rw [← List.replicate_succ' (n := k)]
      rw [this, List.getLast?_concat]

theorem unpad_pad (b : Bytes) : IMAPEnc.unpad (IMAPEnc.pad b) = some b := by
  have hp := padAmount_eq b.length
  have hmod : b.length % 16 < 16 := Nat.mod_lt _ (by omega)
  have h1 : 1 ≤ IMAPEnc.padAmount b.length := by omega
  unfold IMAPEnc.pad IMAPEnc.unpad
  have hlast : (b ++ List.replicate (IMAPEnc.padAmount b.length)
      (IMAPEnc.padAmount b.length)).getLast? =
      some (IMAPEnc.padAmount b.length) := by
    rw [List.getLast?_append_of_ne_nil, getLast?_replicate_self _ h1]
    intro hnil
    have := congrArg List.length hnil
    simp at this
    omega
  rw [hlast]
  have hne : ¬ IMAPEnc.padAmount b.length = 0 := by omega
  simp only [hne, if_false]
  congr 1
  rw [List.length_append, List.length_replicate,
    Nat.add_sub_cancel, List.take_left]

/-- C2: with the AES-CBC cipher and the base64 codec taken as abstract
inverse pairs (`aesD iv` undoes `aesE iv`, `b64d` undoes `b64e`), the
envelope round-trips: `decrypt_message (encrypt_message b) = b` for every
byte string `b`; the pad appends `n` copies of the byte of value `n`, where
`n ∈ [1, 16]` is the least value making `len(b) + n` a multiple of 16; and
`unpad` strips exactly the number of bytes given by the final byte's value. -/
theorem c2_envelope_roundtrip_and_padding
    (aesE aesD : Bytes → Bytes → Bytes) (b64e b64d : Bytes → Bytes)
    (iv b : Bytes)
    (hiv : iv.length = AES_BLOCK_SIZE)
    (haes : ∀ x, aesD iv (aesE iv x) = x)
    (hb64 : ∀ x, b64d (b64e x) = x) :
    IMAPEnc.decrypt_message aesD b64d
        (IMAPEnc.encrypt_message aesE b64e iv b) = some b
    ∧ IMAPEnc.pad b = b ++ List.replicate (IMAPEnc.padAmount b.length)
        (IMAPEnc.padAmount b.length)
    ∧ 1 ≤ IMAPEnc.padAmount b.length
    ∧ IMAPEnc.padAmount b.length ≤ 16
    ∧ (b.length + IMAPEnc.padAmount b.length) % 16 = 0
    ∧ (∀ m, 1 ≤ m → (b.length + m) % 16 = 0 → IMAPEnc.padAmount b.length ≤ m)
    ∧ (∀ d : Bytes, ∀ k, d.getLast? = some k → 1 ≤ k →
        IMAPEnc.unpad d = some (d.take (d.length - k))) := by
  have hp := padAmount_eq b.length
  have hmod : b.length % 16 < 16 := Nat.mod_lt _ (by omega)
  refine ⟨?_, rfl, by omega, by omega, by omega, ?_, ?_⟩
  · unfold IMAPEnc.decrypt_message IMAPEnc.encrypt_message
    rw [hb64]
    unfold IMAPEnc.decrypt IMAPEnc.encrypt
    rw [← hiv, List.take_left, List.drop_left, haes]
    exact unpad_pad b
  · intro m h1 h2
    omega
  · intro d k hlast hk
    unfold IMAPEnc.unpad
    rw [hlast]
    have : ¬ k = 0 := by omega
    simp only [this, if_false]

/-- Closed witness for C2 at the identity cipher/codec, a 16-byte IV and the
concrete plaintext `"d\r\n"`. -/
theorem c2_envelope_roundtrip_and_padding_witness :
    (List.replicate 16 0).length = AES_BLOCK_SIZE
    ∧ (IMAPEnc.decrypt_message (fun _ x => x) (fun x => x)
          (IMAPEnc.encrypt_message (fun _ x => x) (fun x => x)
            (List.replicate 16 0) [100, 13, 10]) = some [100, 13, 10]
      ∧ IMAPEnc.pad [100, 13, 10] = [100, 13, 10] ++
          List.replicate (IMAPEnc.padAmount 3) (IMAPEnc.padAmount 3)
      ∧ 1 ≤ IMAPEnc.padAmount 3
      ∧ IMAPEnc.padAmount 3 ≤ 16
      ∧ (3 + IMAPEnc.padAmount 3) % 16 = 0
      ∧ (∀ m, 1 ≤ m → (3 + m) % 16 = 0 → IMAPEnc.padAmount 3 ≤ m)
      ∧ (∀ d : Bytes, ∀ k, d.getLast? = some k → 1 ≤ k →
          IMAPEnc.unpad d = some (d.take (d.length - k)))) :=
  ⟨by decide,
    c2_envelope_roundtrip_and_padding (fun _ x => x) (fun _ x => x)
      (fun x => x) (fun x => x) (List.replicate 16 0) [100, 13, 10]
      (by decide) (fun _ => rfl) (fun _ => rfl)⟩

/-! ## Mail-store client (`imapconnection.py`)

The IMAP server behind `imaplib` is modelled as the append-only list of the
messages ever appended to the selected mailbox, in append (hence UID) order.
`delete_message` only flags `\Deleted` (the `expunge` call in the source is
commented out), so flagged messages are still found by `UID SEARCH SUBJECT`
and still fetched by `UID FETCH`.  The store keeps the decoded plaintext of
each body: `put_message` encrypts and `get_message` decrypts with the same
codec, whose round trip is `c2_envelope_roundtrip_and_padding`.  `uuid4`
identifiers are naturals from the `supply` counter.  Every mail-store call
is recorded in `trace`. -/

/-- One recorded mail-store call. -/
inductive MailOp where
  | getUid (subject : Nat)
  | put (subject : Nat) (body : Bytes)
  | delete (uid : Nat)
  | fetch (uid : Nat)
  deriving DecidableEq, Repr

/-- One message in the selected mailbox. -/
structure StoredMsg where
  uid : Nat
  subject : Nat
  body : Bytes
  deleted : Bool
  deriving DecidableEq, Repr

/-- The `IMAPConnection` state: mailbox contents, next UID the server will
assign, the subject→UID cache `uid_cache`, the fresh-identifier supply, and
the call trace. -/
structure Conn where
  store : List StoredMsg
  nextUid : Nat
  uidCache : List (Nat × Nat)
  supply : Nat
  trace : List MailOp
  deriving DecidableEq, Repr

/-- `uid_cache` lookup (Python dict membership / indexing). -/
def cacheLookup (cache : List (Nat × Nat)) (s : Nat) : Option Nat :=
  (cache.find? (fun p => p.1 == s)).map (·.2)

/-- `uid_cache[s] = u` (dict assignment). -/
def cacheInsert (cache : List (Nat × Nat)) (s u : Nat) : List (Nat × Nat) :=
  (s, u) :: cache.filter (fun p => ¬ p.1 == s)

namespace Conn

/-- A fresh identifier, standing in for `str(uuid.uuid4())`. -/
def freshName (c : Conn) : Nat × Conn :=
  (c.supply, { c with supply := c.supply + 1 })

/-- `search_by_subject` (imapconnection.py:110-120): UIDs of all messages
with the given subject, oldest first; `None` when there are none.  Deleted
but unexpunged messages are still reported by `UID SEARCH`. -/
def searchBySubject (c : Conn) (s : Nat) : Option (List Nat) :=
  let uids := (c.store.filter (fun m => m.subject == s)).map (·.uid)
  if uids.isEmpty then none else some uids

/-- `get_uid_by_subject` (imapconnection.py:122-135): cache hit, else search
and cache `results[-1]` (the newest). -/
def getUidBySubject (c : Conn) (s : Nat) : Option Nat × Conn :=
  let tr := c.trace ++ [MailOp.getUid s]
  match cacheLookup c.uidCache s with
  | some u => (some u, { c with trace := tr })
  | none =>
      match c.searchBySubject s with
      | none => (none, { c with trace := tr })
      | some uids =>
          let u := uids.getLastD 0
          (some u,
            { c with trace := tr, uidCache := cacheInsert c.uidCache s u })

/-- `get_message` (imapconnection.py:54-71): `None` for a falsy UID; fetch
by UID (deleted-flagged messages are still fetchable before expunge); on a
failed fetch purge the cache entries for that UID and return `None`. -/
def getMessage (c : Conn) (uid : Nat) : Option Bytes × Conn :=
  let tr := c.trace ++ [MailOp.fetch uid]
  if uid = 0 then (none, { c with trace := tr })
  else
    match c.store.find? (fun m => m.uid == uid) with
    | none =>
        (none,
          { c with trace := tr, uidCache := c.uidCache.filter (fun p => ¬ p.2 == uid) })
    | some m => (some m.body, { c with trace := tr })

/-- `put_message` (imapconnection.py:73-95): invalidate the cache entry for
the subject, append the (encrypted, here: plaintext-modelled) body to the
mailbox, and seed the cache from the server's `APPENDUID`. -/
def putMessage (c : Conn) (s : Nat) (d : Bytes) : Conn :=
  let cache1 := c.uidCache.filter (fun p => ¬ p.1 == s)
  { c with
    store := c.store ++ [⟨c.nextUid, s, d, false⟩]
    nextUid := c.nextUid + 1
    uidCache := cacheInsert cache1 s c.nextUid
    trace := c.trace ++ [.put s d] }

/-- `delete_message` (imapconnection.py:98-108): flag `\Deleted` (no
expunge) and purge cache entries pointing at the UID. -/
def deleteMessage (c : Conn) (uid : Nat) : Conn :=
  { c with
    store := c.store.map (fun m =>
      if m.uid == uid then { m with deleted := true } else m)
    uidCache := c.uidCache.filter (fun p => ¬ p.2 == uid)
    trace := c.trace ++ [.delete uid] }

/-- The newest (last-appended) UID holding the given subject, deleted or
not — what `get_uid_by_subject` reports under a sound cache. -/
def newestUid (c : Conn) (s : Nat) : Option Nat :=
  ((c.store.filter (fun m => m.subject == s)).map (·.uid)).getLast?

/-- The body a reader following "newest UID wins" obtains for a subject. -/
def content (c : Conn) (s : Nat) : Option Bytes :=
  ((c.store.filter (fun m => m.subject == s)).getLast?).map (·.body)

/-- A subject with an undeleted (unflagged) message in the mailbox. -/
def present (c : Conn) (s : Nat) : Bool :=
  c.store.any (fun m => m.subject == s && !m.deleted)

end Conn

/-- Well-formedness of the connection, maintained by every complete
client-level operation:
UIDs are strictly increasing in append order, positive and below `nextUid`;
every subject in the mailbox was drawn from the identifier supply;
every cache entry points at the newest UID of its subject;
and at most the newest message of a subject is still unflagged. -/
def ConnWF (c : Conn) : Prop :=
  c.store.Pairwise (fun a b => a.uid < b.uid)
  ∧ (∀ m ∈ c.store, 0 < m.uid ∧ m.uid < c.nextUid)
  ∧ (∀ m ∈ c.store, m.subject < c.supply)
  ∧ (∀ p ∈ c.uidCache, c.newestUid p.1 = some p.2)
  ∧ (∀ m ∈ c.store, m.deleted = false → c.newestUid m.subject = some m.uid)
  ∧ 0 < c.nextUid

instance (c : Conn) : Decidable (ConnWF c) := by
  unfold ConnWF
  infer_instance

/-! ## Message object (`message.py`) -/

/-- Raised Python exceptions that reach the embedding. -/
inductive PyExc where
  | ioError          -- `exceptions.IOError` from `Message.open`
  | runtimeError     -- "dictionary changed size during iteration"
  | attributeError   -- missing attribute, e.g. `node.close_blocks`
  | keyError         -- `dict.pop` on a missing key
  | indexError       -- out-of-range subscript
  | valueError       -- `int()` on a non-numeral
  | badNode          -- `raise Exception("Bad node")` in `fs.open_node`
  deriving DecidableEq, Repr

deriving instance DecidableEq for Except

/-- `os.SEEK_SET` / `os.SEEK_CUR` / `os.SEEK_END`. -/
inductive Whence where
  | set
  | cur
  | sEnd
  deriving DecidableEq, Repr

/-- A `Message`: a seekable byte buffer bound to a subject
(message.py:25-30). -/
structure Msg where
  name : Nat
  data : Bytes
  dirty : Bool
  pos : Nat
  deriving DecidableEq, Repr

namespace Msg

/-- `Message.seek` (message.py:32-40).  Offsets are `Nat`: callers only pass
non-negative offsets, and `SEEK_END`'s `len(data) - off` is only reached
with `off ≤ len(data)`. -/
def seek (m : Msg) (off : Nat) (whence : Whence) : Msg :=
  match whence with
  | .set => { m with pos := off }
  | .cur => { m with pos := m.pos + off }
  | .sEnd => { m with pos := m.data.length - off }

/-- `Message.read(size)` (message.py:42-55), explicit-size branch.  When the
clamp `size = len(data) - pos` fires, cPython leaves `pos` at `len(data)`
(also when the clamped size is negative), which the second component
mirrors. -/
def read (m : Msg) (size : Nat) : Bytes × Msg :=
  if m.pos + size > m.data.length then
    ((m.data.drop m.pos).take (m.data.length - m.pos),
      { m with pos := m.data.length })
  else
    ((m.data.drop m.pos).take size, { m with pos := m.pos + size })

/-- `Message.read()` (message.py:45-48), size-omitted branch. -/
def readAll (m : Msg) : Bytes × Msg :=
  let buf := m.data.drop m.pos
  (buf, { m with pos := m.pos + buf.length })

/-- `Message.truncate(size)` (message.py:57-70) with an explicit size (the
source's `size=None` no-op default is never used with `None` by any
caller). Shrinking clamps the cursor; growing pads with `'.'` (0x2E). -/
def truncate (m : Msg) (size : Nat) : Msg :=
  if m.data.length > size then
    { m with
      data := m.data.take size
      pos := if m.pos > size then size else m.pos
      dirty := true }
  else
    { m with
      data := m.data ++ List.replicate (size - m.data.length) 46
      dirty := true }

/-- `Message.write` (message.py:72-81): grow to fit via `truncate`, then
splice the buffer in at the cursor. -/
def write (m : Msg) (buf : Bytes) : Msg :=
  let m := if m.pos + buf.length > m.data.length
    then m.truncate (m.pos + buf.length) else m
  { m with
    data := m.data.take m.pos ++ buf ++ m.data.drop (m.pos + buf.length)
    pos := m.pos + buf.length
    dirty := true }

/-- `Message.flush` (message.py:83-97): when dirty, look up the old UID for
the subject, append the new copy, then delete the old UID if one existed. -/
def flush (m : Msg) (c : Conn) : Msg × Conn :=
  if m.dirty then
    let (oldUid, c) := c.getUidBySubject m.name
    let c := c.putMessage m.name m.data
    let c := match oldUid with
      | some u => c.deleteMessage u
      | none => c
    ({ m with dirty := false }, c)
  else (m, c)

/-- `Message.close` (message.py:99-102). -/
def close (m : Msg) (c : Conn) : Msg × Conn := m.flush c

/-- `Message.create` (message.py:104-108). -/
def create (c : Conn) : Msg × Conn :=
  let (n, c) := c.freshName
  (⟨n, [], true, 0⟩, c)

/-- `Message.open` (message.py:110-125); `IOError` when the subject has no
UID or the fetch returns nothing.  The raised error is returned next to the
mutated connection. -/
def openM (c : Conn) (name : Nat) : Except PyExc Msg × Conn :=
  let (uid?, c) := c.getUidBySubject name
  match uid? with
  | none => (.error .ioError, c)
  | some uid =>
      let (d?, c) := c.getMessage uid
      match d? with
      | none => (.error .ioError, c)
      | some d => (.ok ⟨name, d, false, 0⟩, c)

/-- `Message.unlink` (message.py:127-136): delete by UID when the subject
resolves to one; a no-op otherwise. -/
def unlink (c : Conn) (name : Nat) : Conn :=
  let (uid?, c) := c.getUidBySubject name
  match uid? with
  | none => c
  | some uid => c.deleteMessage uid

end Msg

/-- C3: a `Message.flush` on a dirty message whose subject still has an old
UID in the mail store makes exactly the calls
`get_uid_by_subject`, `put_message`, `delete_message(old_uid)` — in that
order, so the append of the new copy always precedes the deletion of the
old UID. -/
theorem c3_flush_put_before_delete (m : Msg) (c : Conn) (u : Nat)
    (hdirty : m.dirty = true)
    (hold : (c.getUidBySubject m.name).1 = some u) :
    (m.flush c).2.trace =
      c.trace ++ [.getUid m.name, .put m.name m.data, .delete u] := by
  unfold Msg.flush
  rw [hdirty]
  simp only [if_true]
  unfold Conn.getUidBySubject at hold ⊢
  cases hfind : cacheLookup c.uidCache m.name with
  | some v =>
      simp only [hfind] at hold ⊢
      cases hold
      simp [Conn.putMessage, Conn.deleteMessage]
  | none =>
      simp only [hfind] at hold ⊢
      cases hsearch : c.searchBySubject m.name with
      | none => simp [hsearch] at hold
      | some uids =>
          simp only [hsearch] at hold ⊢
          cases hold
          simp [Conn.putMessage, Conn.deleteMessage]

/-- Closed witness for C3: a dirty message over a store already holding one
copy of its subject. -/
theorem c3_flush_put_before_delete_witness :
    (Msg.mk 5 [9, 8] true 0).dirty = true
    ∧ ((Conn.mk [⟨1, 5, [1, 2], false⟩] 2 [] 6 []).getUidBySubject 5).1 =
        some 1
    ∧ ((Msg.mk 5 [9, 8] true 0).flush
          (Conn.mk [⟨1, 5, [1, 2], false⟩] 2 [] 6 [])).2.trace =
        [] ++ [.getUid 5, .put 5 [9, 8], .delete 1] :=
  ⟨rfl, by decide,
    c3_flush_put_before_delete (Msg.mk 5 [9, 8] true 0)
      (Conn.mk [⟨1, 5, [1, 2], false⟩] 2 [] 6 []) 1 rfl (by decide)⟩

/-- C10: flushing a clean message performs no mail-store calls at all and
returns the message (name, buffer, cursor, dirty flag) and the connection
(including its call trace) unchanged. -/
theorem c10_flush_clean_noop (m : Msg) (c : Conn)
    (hclean : m.dirty = false) :
    m.flush c = (m, c) := by
  unfold Msg.flush
  rw [hclean]
  simp

/-- Closed witness for C10. -/
theorem c10_flush_clean_noop_witness :
    (Msg.mk 3 [1, 2, 3] false 1).dirty = false
    ∧ (Msg.mk 3 [1, 2, 3] false 1).flush (Conn.mk [] 1 [] 4 []) =
        (Msg.mk 3 [1, 2, 3] false 1, Conn.mk [] 1 [] 4 []) :=
  ⟨rfl, c10_flush_clean_noop (Msg.mk 3 [1, 2, 3] false 1)
    (Conn.mk [] 1 [] 4 []) rfl⟩

/-! ## Block file (`file.py`)

`blocks` (block index → block identifier) and `open_messages` (block index
→ resident `Message`) are Python dicts, modelled as association lists in
insertion order.  Aliasing of the shared `Message` objects is made explicit:
every mutation of a block obtained from `open_block` is written back into
`openMsgs`, which is what the shared mutable object gives the source. -/

def FS_BLOCK_SIZE : Nat := 262144

/-- Dict assignment `d[k] = v`: replace in place, or append a new key. -/
def assocSet {α : Type} (l : List (Nat × α)) (k : Nat) (v : α) :
    List (Nat × α) :=
  if (l.lookup k).isSome then
    l.map (fun p => if p.1 == k then (k, v) else p)
  else l ++ [(k, v)]

/-- Dict removal `d.pop(k)` (for unique keys). -/
def assocPop {α : Type} (l : List (Nat × α)) (k : Nat) : List (Nat × α) :=
  l.filter (fun p => ¬ p.1 == k)

/-- A `File` (file.py:25-38). -/
structure FileSt where
  msg : Msg
  ctime : Nat
  mtime : Nat
  size : Nat
  blocks : List (Nat × Nat)
  dirty : Bool
  pos : Nat
  openMsgs : List (Nat × Msg)
  deriving DecidableEq, Repr

namespace FileSt

/-- `File.create_block` (file.py:40-49): a fresh, dirty, empty block
Message, recorded in `blocks` and resident in `open_messages`. -/
def createBlock (f : FileSt) (c : Conn) (bid : Nat) :
    Msg × FileSt × Conn :=
  let (name, c) := c.freshName
  let block : Msg := ⟨name, [], true, 0⟩
  (block,
    { f with
      blocks := assocSet f.blocks bid name
      openMsgs := assocSet f.openMsgs bid block
      dirty := true },
    c)

/-- `File.open_block` (file.py:51-66): resident cache hit, else create a
missing block, else fetch the block Message from the store. -/
def openBlock (f : FileSt) (c : Conn) (bid : Nat) :
    Except PyExc Msg × FileSt × Conn :=
  match f.openMsgs.lookup bid with
  | some m => (.ok m, f, c)
  | none =>
      match f.blocks.lookup bid with
      | none =>
          let (block, f, c) := f.createBlock c bid
          (.ok block, f, c)
      | some key =>
          match Msg.openM c key with
          | (.error e, c) => (.error e, f, c)
          | (.ok m, c) =>
              (.ok m, { f with openMsgs := assocSet f.openMsgs bid m }, c)

/-- `File.close_block` (file.py:68-75): flush the resident block and drop
it from the resident cache. -/
def closeBlock (f : FileSt) (c : Conn) (bid : Nat) : FileSt × Conn :=
  match f.openMsgs.lookup bid with
  | none => (f, c)
  | some m =>
      let (_, c) := m.close c
      ({ f with openMsgs := assocPop f.openMsgs bid }, c)

/-- `File.delete_block` (file.py:77-88). -/
def deleteBlock (f : FileSt) (c : Conn) (bid : Nat) : FileSt × Conn :=
  match f.blocks.lookup bid with
  | none => (f, c)
  | some key =>
      let (f, c) := if (f.openMsgs.lookup bid).isSome
        then f.closeBlock c bid else (f, c)
      let c := Msg.unlink c key
      ({ f with blocks := assocPop f.blocks bid, dirty := true }, c)

/-- `File.truncate` (file.py:90-105).  The source iterates `self.blocks`
with `for block_id in self.blocks` and pops entries from inside the loop
via `delete_block`; on cPython 2 the dict iterator then raises
`RuntimeError: dictionary changed size during iteration` at its next
`next()` call (which also precedes the exhaustion check).  Hence: if no
resident block index exceeds `size / FS_BLOCK_SIZE` the loop completes and
`self.dirty = True` runs; otherwise the first such index (in iteration
order) is deleted and the loop raises, with `self.size` already set and
`dirty` set by `delete_block`.  The `Bool` is the raised RuntimeError. -/
def truncate (f : FileSt) (c : Conn) (size : Nat) : FileSt × Conn × Bool :=
  let f := { f with size := size }
  let endBlock := size / FS_BLOCK_SIZE
  match (f.blocks.map (·.1)).find? (fun k => decide (k > endBlock)) with
  | none => ({ f with dirty := true }, c, false)
  | some k =>
      let (f, c) := f.deleteBlock c k
      (f, c, true)

/-- `File.seek` (file.py:107-127): compute the new position, closing the
block being left when the move crosses a block boundary. -/
def seek (f : FileSt) (c : Conn) (off : Nat) (whence : Whence) :
    FileSt × Conn :=
  let oldPos := f.pos
  let newPos := match whence with
    | .set => off
    | .cur => oldPos + off
    | .sEnd => f.size - off
  let oldB := oldPos / FS_BLOCK_SIZE
  let newB := newPos / FS_BLOCK_SIZE
  let (f, c) :=
    if oldB ≠ newB ∧ (f.openMsgs.lookup oldB).isSome
    then f.closeBlock c oldB else (f, c)
  ({ f with pos := newPos }, c)

/-- The body of `File.read`'s block loop (file.py:144-161), one iteration
per block index.  The mutated block object is written back into
`open_messages` (shared-object aliasing). -/
def readGo (f : FileSt) (c : Conn) (size : Nat) :
    List Nat → Bytes → Except PyExc Bytes × FileSt × Conn
  | [], acc => (.ok acc, f, c)
  | i :: rest, acc =>
      let cbOff := f.pos % FS_BLOCK_SIZE
      let rs := FS_BLOCK_SIZE - cbOff
      let rs := if acc.length + rs > size then size - acc.length else rs
      match f.openBlock c i with
      | (.error e, f, c) => (.error e, f, c)
      | (.ok block, f, c) =>
          let block := block.seek cbOff .set
          let (chunk, block) := block.read rs
          let f := { f with openMsgs := assocSet f.openMsgs i block }
          let (f, c) := f.seek c rs .cur
          readGo f c size rest (acc ++ chunk)

/-- `File.read` (file.py:129-163).  The clamp `size = self.size - self.pos`
can go negative in Python when the cursor sits past EOF; the `Int`
intermediate keeps the loop's block range faithful in that case (the loop
then visits no block, or one block for a same-block overshoot, and returns
the empty string either way). -/
def read (f : FileSt) (c : Conn) (size : Nat) :
    Except PyExc Bytes × FileSt × Conn :=
  let sizeI : Int :=
    if f.pos + size > f.size then (f.size : Int) - (f.pos : Int)
    else (size : Int)
  let startB := f.pos / FS_BLOCK_SIZE
  let endB := ((f.pos : Int) + sizeI).toNat / FS_BLOCK_SIZE + 1
  readGo f c sizeI.toNat (List.range' startB (endB - startB)) []

/-- The body of `File.write`'s block loop (file.py:180-198). -/
def writeGo (f : FileSt) (c : Conn) (buf : Bytes) :
    List Nat → Nat → Except PyExc Unit × FileSt × Conn
  | [], _ => (.ok (), f, c)
  | i :: rest, wo =>
      let cbOff := f.pos % FS_BLOCK_SIZE
      let ws := FS_BLOCK_SIZE - cbOff
      let ws := if ws > buf.length - wo then buf.length - wo else ws
      match f.openBlock c i with
      | (.error e, f, c) => (.error e, f, c)
      | (.ok block, f, c) =>
          let block := block.seek cbOff .set
          let block := block.write ((buf.drop wo).take ws)
          let f := { f with openMsgs := assocSet f.openMsgs i block }
          let (f, c) := f.seek c ws .cur
          writeGo f c buf rest (wo + ws)

/-- `File.write` (file.py:165-198): grow via `truncate` when needed (a
RuntimeError raised there aborts the write), then write block by block. -/
def write (f : FileSt) (c : Conn) (buf : Bytes) :
    Except PyExc Unit × FileSt × Conn :=
  let size := buf.length
  let (f, c, raised) :=
    if f.pos + size > f.size then f.truncate c (f.pos + size)
    else (f, c, false)
  if raised then (.error .runtimeError, f, c)
  else
    let startB := f.pos / FS_BLOCK_SIZE
    let endB := (f.pos + size) / FS_BLOCK_SIZE + 1
    writeGo f c buf (List.range' startB (endB - startB)) 0

/-- The serialized descriptor header `"f\r\n%d\t%d\t%d\r\n"`
(file.py:205). -/
def header (f : FileSt) : Bytes :=
  [102, 13, 10] ++ natBytes f.ctime ++ [9] ++ natBytes f.mtime ++ [9]
    ++ natBytes f.size ++ [13, 10]

/-- One serialized block line `"%d\t%s\r\n"` (file.py:207). -/
def blockLine (p : Nat × Nat) : Bytes :=
  natBytes p.1 ++ [9] ++ natBytes p.2 ++ [13, 10]

/-- `File.flush` (file.py:200-210): when dirty, rewrite the descriptor
Message body from scratch and flush it. -/
def flush (f : FileSt) (c : Conn) : FileSt × Conn :=
  if f.dirty then
    let m := f.msg.truncate 0
    let m := m.write f.header
    let m := f.blocks.foldl (fun m p => m.write (blockLine p)) m
    let (m, c) := m.flush c
    ({ f with msg := m, dirty := false }, c)
  else (f, c)

/-- `File.close` (file.py:212-223): close (flush) every resident block,
clear the resident table, flush, close the descriptor. -/
def close (f : FileSt) (c : Conn) : FileSt × Conn :=
  let c := f.openMsgs.foldl (fun c p => (p.2.close c).2) c
  let f := { f with openMsgs := [] }
  let (f, c) := f.flush c
  let (m, c) := f.msg.close c
  ({ f with msg := m }, c)

/-- `File.delete` (file.py:225-234): unlink every referenced block
Message, then the descriptor Message. -/
def delete (f : FileSt) (c : Conn) : Conn :=
  let c := f.blocks.foldl (fun c p => Msg.unlink c p.2) c
  Msg.unlink c f.msg.name

/-- `File.create` (file.py:236-243).  `time.time()` is modelled as 0. -/
def create (c : Conn) : FileSt × Conn :=
  let (m, c) := Msg.create c
  ({ msg := m, ctime := 0, mtime := 0, size := 0, blocks := [],
     dirty := true, pos := 0, openMsgs := [] }, c)

end FileSt

/-- `node.seek(offset); node.read(size)` — the file part of the `read`
handler (fs.py:348-349). -/
def fileReadAt (f : FileSt) (c : Conn) (off size : Nat) :
    Except PyExc Bytes × FileSt × Conn :=
  let (f, c) := f.seek c off .set
  f.read c size

/-- `node.seek(offset); node.write(buf)` — the file part of the `write`
handler (fs.py:364-365). -/
def fileWriteAt (f : FileSt) (c : Conn) (off : Nat) (buf : Bytes) :
    Except PyExc Unit × FileSt × Conn :=
  let (f, c) := f.seek c off .set
  f.write c buf

/-! ## Stored-body parsing helpers

`str.split(sep)` and `int()` for `File.from_message` /
`Directory.from_message`. -/

/-- Python `str.split(sep)` on byte strings, by fuel (each step consumes at
least one byte for a non-empty separator). -/
def splitBytesGo (sep : Bytes) : Nat → Bytes → Bytes → List Bytes
  | 0, l, cur => [cur ++ l]
  | fuel + 1, l, cur =>
      if sep.isPrefixOf l then
        cur :: splitBytesGo sep fuel (l.drop sep.length) []
      else
        match l with
        | [] => [cur]
        | a :: rest => splitBytesGo sep fuel rest (cur ++ [a])

/-- Python `s.split(sep)` (non-empty `sep`). -/
def splitBytes (l sep : Bytes) : List Bytes :=
  splitBytesGo sep (l.length + 1) l []

/-- Python `int()` on a decimal numeral; `none` models the `ValueError`
raised on anything else. -/
def parseNat (b : Bytes) : Option Nat :=
  if b.isEmpty then none
  else if b.all (fun x => decide (48 ≤ x) && decide (x ≤ 57)) then
    some (b.foldl (fun a x => a * 10 + (x - 48)) 0)
  else none

/-- The `for line in lines[2:]` entry-parsing loop shared by
`File.from_message` (file.py:256-260) and `Directory.from_message`
(directory.py:93-97): skip empty lines, split each on TAB, key the first
field (`int(...)` for files; the identifier parse also stands in for the
directory's string key, identifiers being modelled as naturals) and store
the second.  Entries land in the dict in line order. -/
def parseEntriesGo {β : Type} (parseVal : Bytes → Option β)
    (acc : List (Nat × β)) :
    List Bytes → Except PyExc (List (Nat × β))
  | [] => .ok acc
  | line :: rest =>
      if line.isEmpty then parseEntriesGo parseVal acc rest
      else
        let li := splitBytes line [9]
        match li.get? 1 with
        | none => .error .indexError
        | some v =>
            match li.get? 0 with
            | none => .error .indexError
            | some k =>
                match parseNat k with
                | none => .error .valueError
                | some kn =>
                    match parseVal v with
                    | none => .error .valueError
                    | some vn => parseEntriesGo parseVal (assocSet acc kn vn) rest

/-- `File.from_message` (file.py:245-263): split the body on CRLF, read
`ctime`/`mtime`/`size` from line 1, the block map from the remaining
lines. -/
def FileSt.fromMessage (msg : Msg) : Except PyExc FileSt :=
  let (buf, msg) := msg.readAll
  let lines := splitBytes buf [13, 10]
  match lines.get? 1 with
  | none => .error .indexError
  | some line1 =>
      let info := splitBytes line1 [9]
      match parseEntriesGo parseNat [] (lines.drop 2) with
      | .error e => .error e
      | .ok blocks =>
          match info.get? 0, info.get? 1, info.get? 2 with
          | some i0, some i1, some i2 =>
              match parseNat i0, parseNat i1, parseNat i2 with
              | some ct, some mt, some sz =>
                  .ok { msg := msg, ctime := ct, mtime := mt, size := sz,
                        blocks := blocks, dirty := false, pos := 0,
                        openMsgs := [] }
              | _, _, _ => .error .valueError
          | _, _, _ => .error .indexError

/-! ## Directory (`directory.py`)

`children` maps child identifier to child name (filename bytes). -/

/-- A `Directory` (directory.py:22-32). -/
structure DirSt where
  msg : Msg
  ctime : Nat
  mtime : Nat
  children : List (Nat × Bytes)
  dirty : Bool
  deriving DecidableEq, Repr

namespace DirSt

/-- `Directory.add_child` (directory.py:34-38). -/
def addChild (d : DirSt) (key : Nat) (name : Bytes) : DirSt :=
  { d with children := assocSet d.children key name, dirty := true }

/-- `Directory.remove_child` (directory.py:40-46): no-op when absent. -/
def removeChild (d : DirSt) (key : Nat) : DirSt :=
  if (d.children.lookup key).isSome then
    { d with children := assocPop d.children key, dirty := true }
  else d

/-- `Directory.get_child_by_name` (directory.py:48-54): linear scan. -/
def getChildByName (d : DirSt) (name : Bytes) : Option Nat :=
  (d.children.find? (fun p => p.2 == name)).map (·.1)

/-- The serialized header `"d\r\n%d\t%d\r\n"` (directory.py:61). -/
def header (d : DirSt) : Bytes :=
  [100, 13, 10] ++ natBytes d.ctime ++ [9] ++ natBytes d.mtime ++ [13, 10]

/-- One serialized child line `"%s\t%s\r\n"` (directory.py:63). -/
def childLine (p : Nat × Bytes) : Bytes :=
  natBytes p.1 ++ [9] ++ p.2 ++ [13, 10]

/-- `Directory.flush` (directory.py:56-65). -/
def flush (d : DirSt) (c : Conn) : DirSt × Conn :=
  if d.dirty then
    let m := d.msg.truncate 0
    let m := m.write d.header
    let m := d.children.foldl (fun m p => m.write (childLine p)) m
    let (m, c) := m.flush c
    ({ d with msg := m, dirty := false }, c)
  else (d, c)

/-- `Directory.close` (directory.py:67-72). -/
def close (d : DirSt) (c : Conn) : DirSt × Conn :=
  let (d, c) := d.flush c
  let (m, c) := d.msg.close c
  ({ d with msg := m }, c)

/-- `Directory.create` (directory.py:74-81); `time.time()` modelled as 0. -/
def create (c : Conn) : DirSt × Conn :=
  let (m, c) := Msg.create c
  ({ msg := m, ctime := 0, mtime := 0, children := [], dirty := true }, c)

/-- `Directory.from_message` (directory.py:83-100). -/
def fromMessage (msg : Msg) : Except PyExc DirSt :=
  let (buf, msg) := msg.readAll
  let lines := splitBytes buf [13, 10]
  match lines.get? 1 with
  | none => .error .indexError
  | some line1 =>
      let info := splitBytes line1 [9]
      match parseEntriesGo (fun v => some v) [] (lines.drop 2) with
      | .error e => .error e
      | .ok children =>
          match info.get? 0, info.get? 1 with
          | some i0, some i1 =>
              match parseNat i0, parseNat i1 with
              | some ct, some mt =>
                  .ok { msg := msg, ctime := ct, mtime := mt,
                        children := children, dirty := false }
              | _, _ => .error .valueError
          | _, _ => .error .indexError

end DirSt

/-! ## Filesystem core (`fs.py`) -/

/-- A live node of the open-node cache. -/
inductive Node where
  | file (f : FileSt)
  | dir (d : DirSt)
  deriving DecidableEq, Repr

/-- `node.message.name`. -/
def Node.name : Node → Nat
  | .file f => f.msg.name
  | .dir d => d.msg.name

/-- The root identifier `str(uuid.UUID(bytes='\0'*16))` (fs.py:26),
modelled as the natural `0` (the fresh-name supply starts at 1). -/
def ROOT : Nat := 0

/-- The `IMAPFS` state the handlers touch: the open-node cache and the
mail-store connection. -/
structure Fs where
  openNodes : List (Nat × Node)
  conn : Conn
  deriving DecidableEq, Repr

/-- What a FUSE handler hands back to the bridge. -/
inductive FsRet where
  | errno (e : Int)    -- a returned negative errno
  | num (n : Nat)      -- `write` returns the byte count
  | buf (b : Bytes)    -- `read` returns data
  | done               -- implicit `None` return: success
  | exc (e : PyExc)    -- an uncaught exception escaping the handler
  deriving DecidableEq, Repr

def ENOENT : Int := 2
def EEXIST : Int := 17
def EISDIR : Int := 21
def ENOTDIR : Int := 20
def ENOTEMPTY : Int := 39

namespace Fs

/-- `IMAPFS.open_node` (fs.py:68-96): cache hit, else open the Message
(`except: return None` covers only `Message.open`), dispatch on the first
body byte, parse, cache.  Raised errors escape with the mutated state. -/
def openNode (fs : Fs) (name : Nat) : Except PyExc (Option Node) × Fs :=
  match fs.openNodes.lookup name with
  | some n => (.ok (some n), fs)
  | none =>
      match Msg.openM fs.conn name with
      | (.error _, c) => (.ok none, { fs with conn := c })
      | (.ok msg, c) =>
          match msg.data.head? with
          | none => (.error .indexError, { fs with conn := c })
          | some b =>
              if b == 102 then
                match FileSt.fromMessage msg with
                | .error e => (.error e, { fs with conn := c })
                | .ok f =>
                    (.ok (some (.file f)),
                      { openNodes := assocSet fs.openNodes name (.file f),
                        conn := c })
              else if b == 100 then
                match DirSt.fromMessage msg with
                | .error e => (.error e, { fs with conn := c })
                | .ok d =>
                    (.ok (some (.dir d)),
                      { openNodes := assocSet fs.openNodes name (.dir d),
                        conn := c })
              else (.error .badNode, { fs with conn := c })

/-- `IMAPFS.close_node` (fs.py:98-104): close the node, then drop its cache
entry when present. -/
def closeNode (fs : Fs) (n : Node) : Fs :=
  match n with
  | .file f =>
      let (f, c) := f.close fs.conn
      { openNodes := assocPop fs.openNodes f.msg.name, conn := c }
  | .dir d =>
      let (d, c) := d.close fs.conn
      { openNodes := assocPop fs.openNodes d.msg.name, conn := c }

end Fs

/-- Paths are handled as byte strings; `47` is `'/'`. -/
def pathParts (p : Bytes) : List Bytes := splitBytes p [47]

/-- `IMAPFS.get_path_parent` (fs.py:169-173): `path.rpartition("/")[0]`, the
prefix before the last slash (empty when there is none). -/
def getPathParent (p : Bytes) : Bytes :=
  List.intercalate [47] (pathParts p).dropLast

/-- `IMAPFS.get_path_filename` (fs.py:175-179): `path.rpartition("/")[2]`,
the suffix after the last slash (the whole path when there is none). -/
def getPathFilename (p : Bytes) : Bytes :=
  (pathParts p).getLastD []

namespace Fs

/-- The `for part in parts` walk of `IMAPFS.get_node_by_path`
(fs.py:149-167).  Empty parts are skipped; a non-directory current node
(including `None`) breaks out of the loop and is returned as-is; a missing
child or a child that fails to open returns `None`. -/
def resolveParts (fs : Fs) (cur : Option Node) :
    List Bytes → Except PyExc (Option Node) × Fs
  | [] => (.ok cur, fs)
  | part :: rest =>
      if part.isEmpty then fs.resolveParts cur rest
      else
        match cur with
        | some (.dir d) =>
            match d.getChildByName part with
            | none => (.ok none, fs)
            | some key =>
                match fs.openNode key with
                | (.error e, fs) => (.error e, fs)
                | (.ok none, fs) => (.ok none, fs)
                | (.ok (some child), fs) => fs.resolveParts (some child) rest
        | _ => (.ok cur, fs)

/-- `IMAPFS.get_node_by_path` (fs.py:138-167). -/
def getNodeByPath (fs : Fs) (path : Bytes) :
    Except PyExc (Option Node) × Fs :=
  if path = [47] then fs.openNode ROOT
  else
    let parts := pathParts path
    match fs.openNode ROOT with
    | (.error e, fs) => (.error e, fs)
    | (.ok cur, fs) => fs.resolveParts cur parts

/-- `IMAPFS.mkdir` (fs.py:222-233).  Note fs.py:229: a parent that fails to
resolve returns `-fuse.EEXIST`. -/
def mkdir (fs : Fs) (path : Bytes) (_mode : Nat) : FsRet × Fs :=
  match fs.getNodeByPath path with
  | (.error e, fs) => (.exc e, fs)
  | (.ok (some _), fs) => (.errno (-EEXIST), fs)
  | (.ok none, fs) =>
      match fs.getNodeByPath (getPathParent path) with
      | (.error e, fs) => (.exc e, fs)
      | (.ok none, fs) => (.errno (-EEXIST), fs)
      | (.ok (some (.file _)), fs) => (.exc .attributeError, fs)
      | (.ok (some (.dir parent)), fs) =>
          let (child, c) := DirSt.create fs.conn
          let nodes0 := assocSet fs.openNodes child.msg.name (.dir child)
          let fs : Fs := { openNodes := nodes0, conn := c }
          let parent := parent.addChild child.msg.name
            (getPathFilename path)
          let nodes := assocSet fs.openNodes parent.msg.name (.dir parent)
          let fs := { fs with openNodes := nodes }
          (.done, fs)

/-- `IMAPFS.mknod` (fs.py:254-267): like `mkdir` but for files (missing
parent yields `-fuse.ENOENT` here), and the fresh node is closed. -/
def mknod (fs : Fs) (path : Bytes) (_mode _dev : Nat) : FsRet × Fs :=
  match fs.getNodeByPath path with
  | (.error e, fs) => (.exc e, fs)
  | (.ok (some _), fs) => (.errno (-EEXIST), fs)
  | (.ok none, fs) =>
      match fs.getNodeByPath (getPathParent path) with
      | (.error e, fs) => (.exc e, fs)
      | (.ok none, fs) => (.errno (-ENOENT), fs)
      | (.ok (some (.file _)), fs) => (.exc .attributeError, fs)
      | (.ok (some (.dir parent)), fs) =>
          let (node, c) := FileSt.create fs.conn
          let nodes0 := assocSet fs.openNodes node.msg.name (.file node)
          let fs : Fs := { openNodes := nodes0, conn := c }
          let parent := parent.addChild node.msg.name
            (getPathFilename path)
          let nodes := assocSet fs.openNodes parent.msg.name (.dir parent)
          let fs := { fs with openNodes := nodes }
          let fs := fs.closeNode (.file node)
          (.done, fs)

/-- `IMAPFS.unlink` (fs.py:318-329): target must be a file; remove it from
the parent, delete it (all block Messages, then the descriptor), drop it
from the open-node cache (`dict.pop`, KeyError when absent). -/
def unlink (fs : Fs) (path : Bytes) : FsRet × Fs :=
  match fs.getNodeByPath path with
  | (.error e, fs) => (.exc e, fs)
  | (.ok none, fs) => (.errno (-ENOENT), fs)
  | (.ok (some (.dir _)), fs) => (.errno (-ENOENT), fs)
  | (.ok (some (.file f)), fs) =>
      match fs.getNodeByPath (getPathParent path) with
      | (.error e, fs) => (.exc e, fs)
      | (.ok none, fs) => (.errno (-ENOENT), fs)
      | (.ok (some (.file _)), fs) => (.exc .attributeError, fs)
      | (.ok (some (.dir parent)), fs) =>
          let parent := parent.removeChild f.msg.name
          let nodes := assocSet fs.openNodes parent.msg.name (.dir parent)
          let fs := { fs with openNodes := nodes }
          let c := f.delete fs.conn
          let fs := { fs with conn := c }
          if (fs.openNodes.lookup f.msg.name).isSome then
            (.done, { fs with openNodes := assocPop fs.openNodes f.msg.name })
          else (.exc .keyError, fs)

/-- `IMAPFS.truncate` (fs.py:331-339); a RuntimeError raised inside
`File.truncate` escapes with the partially mutated state. -/
def truncate (fs : Fs) (path : Bytes) (size : Nat) : FsRet × Fs :=
  match fs.getNodeByPath path with
  | (.error e, fs) => (.exc e, fs)
  | (.ok none, fs) => (.errno (-ENOENT), fs)
  | (.ok (some (.dir _)), fs) => (.errno (-EISDIR), fs)
  | (.ok (some (.file f)), fs) =>
      let (f, c, raised) := f.truncate fs.conn size
      let nodes0 := assocSet fs.openNodes f.msg.name (.file f)
      let fs : Fs := { openNodes := nodes0, conn := c }
      if raised then (.exc .runtimeError, fs) else (.done, fs)

/-- `IMAPFS.read` (fs.py:341-353). -/
def read (fs : Fs) (path : Bytes) (size offset : Nat) : FsRet × Fs :=
  match fs.getNodeByPath path with
  | (.error e, fs) => (.exc e, fs)
  | (.ok none, fs) => (.errno (-ENOENT), fs)
  | (.ok (some (.dir _)), fs) => (.errno (-EISDIR), fs)
  | (.ok (some (.file f)), fs) =>
      match fileReadAt f fs.conn offset size with
      | (r, f, c) =>
          let nodes0 := assocSet fs.openNodes f.msg.name (.file f)
          let fs : Fs := { openNodes := nodes0, conn := c }
          match r with
          | .error e => (.exc e, fs)
          | .ok data => (.buf data, fs)

/-- `IMAPFS.write` (fs.py:355-369). -/
def write (fs : Fs) (path : Bytes) (buf : Bytes) (offset : Nat) :
    FsRet × Fs :=
  match fs.getNodeByPath path with
  | (.error e, fs) => (.exc e, fs)
  | (.ok none, fs) => (.errno (-ENOENT), fs)
  | (.ok (some (.dir _)), fs) => (.errno (-EISDIR), fs)
  | (.ok (some (.file f)), fs) =>
      match fileWriteAt f fs.conn offset buf with
      | (r, f, c) =>
          let nodes0 := assocSet fs.openNodes f.msg.name (.file f)
          let fs : Fs := { openNodes := nodes0, conn := c }
          match r with
          | .error e => (.exc e, fs)
          | .ok () => (.num buf.length, fs)

/-- `IMAPFS.release` (fs.py:371-378): the source calls
`node.close_blocks()`, a method neither `File` nor `Directory` defines
(`File` only has `close_block`), so every release of an existing node
raises `AttributeError`. -/
def release (fs : Fs) (path : Bytes) (_flags : Nat) : FsRet × Fs :=
  match fs.getNodeByPath path with
  | (.error e, fs) => (.exc e, fs)
  | (.ok none, fs) => (.errno (-ENOENT), fs)
  | (.ok (some _), fs) => (.exc .attributeError, fs)

end Fs

/-! ## Concrete states used by the closed theorems

A freshly initialized filesystem whose root directory holds one empty file
`x` (identifier 1), both resident in the open-node cache. -/

def sampleConn : Conn := ⟨[], 1, [], 2, []⟩

def fileX : FileSt :=
  { msg := ⟨1, [], false, 0⟩, ctime := 0, mtime := 0, size := 0,
    blocks := [], dirty := false, pos := 0, openMsgs := [] }

def rootDir : DirSt :=
  { msg := ⟨0, [100, 13, 10], false, 0⟩, ctime := 0, mtime := 0,
    children := [(1, strBytes "x")], dirty := false }

def fs0 : Fs := ⟨[(0, .dir rootDir), (1, .file fileX)], sampleConn⟩

/-- The path `"/x"`. -/
def pathX : Bytes := [47, 120]

/-- The path `"/a/b"`. -/
def pathAB : Bytes := [47, 97, 47, 98]

/-- C9 (code bug): with neither `"/a/b"` nor its parent `"/a"` resolving to
a node, `mkdir("/a/b", mode)` returns `-EEXIST` (fs.py:229) — not the
`-ENOENT` the specification requires (and which the structurally identical
`mknod` handler returns at fs.py:261). -/
theorem c9_mkdir_missing_parent_eexist :
    (fs0.getNodeByPath pathAB).1 = .ok none
    ∧ (fs0.getNodeByPath (getPathParent pathAB)).1 = .ok none
    ∧ (fs0.mkdir pathAB 0).1 = .errno (-EEXIST)
    ∧ (fs0.mknod pathAB 0 0).1 = .errno (-ENOENT)
    ∧ .errno (-EEXIST) ≠ FsRet.errno (-ENOENT) :=
  ⟨rfl, rfl, rfl, rfl, by decide⟩

/-- C7 (code bug): `"/x"` resolves to an existing node, yet
`release("/x", flags)` raises `AttributeError` instead of completing and
flushing: fs.py:376 calls `node.close_blocks()`, a method neither `File`
nor `Directory` defines.  Nothing is flushed and no success is returned. -/
theorem c7_release_attribute_error :
    (fs0.getNodeByPath pathX).1 = .ok (some (.file fileX))
    ∧ (fs0.release pathX 0).1 = .exc .attributeError :=
  ⟨rfl, rfl⟩

/-- A file whose block map holds indices 0 and 1 (as after two block-sized
writes), used to exercise the truncate deletion loop. -/
def conn6 : Conn := ⟨[], 1, [], 20, []⟩

def file6 : FileSt :=
  { fileX with blocks := [(0, 10), (1, 11)], size := 300000 }

/-- C6 (code bug): `truncate(0)` on a file with blocks {0, 1} must delete
block 1 (index beyond `floor(0 / block-size) = 0`) and retain block 0 — but
file.py:100 iterates the `blocks` dict while `delete_block` pops from it,
so cPython 2 raises `RuntimeError: dictionary changed size during
iteration` right after the first deletion: the operation aborts with the
size already set and only the first beyond-the-end block deleted. -/
theorem c6_truncate_runtime_error :
    (file6.truncate conn6 0).2.2 = true
    ∧ (file6.truncate conn6 0).1.size = 0
    ∧ (file6.truncate conn6 0).1.blocks.map Prod.fst = [0] :=
  ⟨rfl, rfl, rfl⟩

/-- The byte count a `read` handler returned, 0 for non-data results. -/
def bufLenOf : FsRet → Nat
  | .buf b => b.length
  | _ => 0

/-- C4 counterexample: on the empty file `"/x"` (size 0), writing one byte
at offset 262144 leaves the gap `[0, 262144)` spanning the whole of the
never-written block 0; the gap read `read("/x", 262144, 0)` then returns
the single byte `0x41` — one byte, not 262144 placeholder `'.'` bytes —
because the freshly created block 0 Message is empty and `Message.read`
clamps to its length. -/
theorem c4_counterexample :
    (Fs.write fs0 pathX [65] 262144).1 = .num 1
    ∧ (Fs.read (Fs.write fs0 pathX [65] 262144).2 pathX 262144 0).1 =
        .buf [65]
    ∧ (Fs.read (Fs.write fs0 pathX [65] 262144).2 pathX 262144 0).1 ≠
        .buf (List.replicate (262144 - 0) 46) := by
  refine ⟨rfl, rfl, ?_⟩
  intro h
  rw [show (Fs.read (Fs.write fs0 pathX [65] 262144).2 pathX 262144 0).1 =
      .buf [65] from rfl] at h
  have hlen := congrArg bufLenOf h
  simp only [bufLenOf, List.length_replicate] at hlen
  simp at hlen

/-- The write/truncate/write/read chain behind the C1 counterexample:
three one-byte writes at offsets `2B`, `B`, `0` give `"/x"` blocks
{2, 1, 0}; `truncate("/x", 0)` aborts with the Python 2 RuntimeError after
deleting only block 2, leaving the stale index 1 in the block map. -/
def c1Stale : Fs :=
  (Fs.truncate (Fs.write (Fs.write (Fs.write fs0 pathX [65] 524288).2
    pathX [66] 262144).2 pathX [67] 0).2 pathX 0).2

/-- C1 counterexample: on the reachable state `c1Stale` (produced by
filesystem operations only), `write("/x", [0x44], 0)` itself aborts with
the RuntimeError that `File.truncate` raises on the stale block index 1,
and the following `read("/x", 1, 0)` returns the old byte `0x43`, not the
written buffer `[0x44]`. -/
theorem c1_counterexample :
    (Fs.truncate (Fs.write (Fs.write (Fs.write fs0 pathX [65] 524288).2
        pathX [66] 262144).2 pathX [67] 0).2 pathX 0).1 =
      .exc .runtimeError
    ∧ (Fs.write c1Stale pathX [68] 0).1 = .exc .runtimeError
    ∧ (Fs.read (Fs.write c1Stale pathX [68] 0).2 pathX 1 0).1 = .buf [67]
    ∧ FsRet.buf [67] ≠ .buf [68] :=
  ⟨rfl, rfl, rfl, by decide⟩

/-- C5 counterexample: a one-byte write at offset 262143 of a fresh block
file ends exactly on the block boundary; its byte range `[262143, 262144)`
touches only block index 0 (`262143 / 262144 = 0`), yet the write loop
(`end_block_id = (pos+size)/block_size + 1`, file.py:175) also visits index
1 and `open_block` allocates a block Message for it: the resulting block
map holds indices `[0, 1]`. -/
theorem c5_counterexample :
    (fileWriteAt (FileSt.create sampleConn).1 (FileSt.create sampleConn).2
        262143 [65]).1 = .ok ()
    ∧ ((fileWriteAt (FileSt.create sampleConn).1
        (FileSt.create sampleConn).2 262143 [65]).2.1.blocks.map Prod.fst) =
        [0, 1]
    ∧ 262143 / FS_BLOCK_SIZE = 0
    ∧ (262143 + 1 - 1) / FS_BLOCK_SIZE = 0 :=
  ⟨rfl, rfl, rfl, rfl⟩

/-! ## Association-list lemmas -/

theorem lookup_cons {α : Type} (j k : Nat) (v : α) (t : List (Nat × α)) :
    List.lookup j ((k, v) :: t) =
      if j = k then some v else List.lookup j t := by
  by_cases h : j = k
  · subst h
    rw [if_pos rfl]
    simp only [List.lookup]
    rw [show (j == j) = true by simp]
  · rw [if_neg h]
    simp only [List.lookup]
    rw [show (j == k) = false by simp [h]]

theorem lookup_eq_none_of_not_mem {α : Type} {l : List (Nat × α)} {k : Nat}
    (h : k ∉ l.map (·.1)) : l.lookup k = none := by
  induction l with
  | nil => rfl
  | cons p t ih =>
      simp only [List.map_cons, List.mem_cons] at h
      push_neg at h
      obtain ⟨p1, p2⟩ := p
      rw [lookup_cons, if_neg h.1]
      exact ih h.2

theorem mem_keys_of_lookup_isSome {α : Type} {l : List (Nat × α)} {k : Nat}
    (h : (l.lookup k).isSome) : k ∈ l.map (·.1) := by
  by_contra hmem
  rw [lookup_eq_none_of_not_mem hmem] at h
  simp at h

theorem lookup_isSome_of_mem_keys {α : Type} {l : List (Nat × α)} {k : Nat}
    (h : k ∈ l.map (·.1)) : (l.lookup k).isSome := by
  induction l with
  | nil => simp at h
  | cons p t ih =>
      obtain ⟨p1, p2⟩ := p
      simp only [List.map_cons, List.mem_cons] at h
      rw [lookup_cons]
      by_cases hk : k = p1
      · rw [if_pos hk]; rfl
      · rw [if_neg hk]; exact ih (h.resolve_left hk)

theorem lookup_append_left {α : Type} {l₁ l₂ : List (Nat × α)} {k : Nat}
    (h : (l₁.lookup k).isSome) :
    (l₁ ++ l₂).lookup k = l₁.lookup k := by
  induction l₁ with
  | nil => simp at h
  | cons p t ih =>
      obtain ⟨p1, p2⟩ := p
      rw [List.cons_append, lookup_cons, lookup_cons]
      by_cases hk : k = p1
      · rw [if_pos hk, if_pos hk]
      · rw [if_neg hk, if_neg hk]
        rw [lookup_cons, if_neg hk] at h
        exact ih h

theorem lookup_append_right {α : Type} {l₁ l₂ : List (Nat × α)} {k : Nat}
    (h : l₁.lookup k = none) :
    (l₁ ++ l₂).lookup k = l₂.lookup k := by
  induction l₁ with
  | nil => simp
  | cons p t ih =>
      obtain ⟨p1, p2⟩ := p
      rw [List.cons_append, lookup_cons]
      rw [lookup_cons] at h
      by_cases hk : k = p1
      · rw [if_pos hk] at h; simp at h
      · rw [if_neg hk] at h ⊢
        exact ih h

theorem lookup_map_replace {α : Type} (t : List (Nat × α)) (k : Nat)
    (v : α) {j : Nat} (hj : j ≠ k) :
    List.lookup j (t.map (fun p => if (p.1 == k) = true then (k, v) else p)) =
      List.lookup j t := by
  induction t with
  | nil => rfl
  | cons q s ih =>
      obtain ⟨q1, q2⟩ := q
      rw [List.map_cons]
      by_cases hq : q1 = k
      · rw [show (if ((q1, q2).1 == k) = true then (k, v) else (q1, q2)) =
            (k, v) by simp [hq]]
        rw [lookup_cons, lookup_cons, if_neg hj, if_neg (by rw [hq]; exact hj)]
        exact ih
      · rw [show (if ((q1, q2).1 == k) = true then (k, v) else (q1, q2)) =
            (q1, q2) by simp [hq]]
        rw [lookup_cons, lookup_cons]
        by_cases hjq : j = q1
        · rw [if_pos hjq, if_pos hjq]
        · rw [if_neg hjq, if_neg hjq]
          exact ih

theorem lookup_map_replace_self {α : Type} (t : List (Nat × α)) (k : Nat)
    (v : α) :
    List.lookup k (t.map (fun p => if (p.1 == k) = true then (k, v) else p)) =
      if (t.lookup k).isSome then some v else none := by
  induction t with
  | nil => rfl
  | cons q s ih =>
      obtain ⟨q1, q2⟩ := q
      rw [List.map_cons]
      by_cases hq : q1 = k
      · rw [show (if ((q1, q2).1 == k) = true then (k, v) else (q1, q2)) =
            (k, v) by simp [hq]]
        have hr : List.lookup k ((q1, q2) :: s) = some q2 := by
          rw [lookup_cons, if_pos hq.symm]
        rw [hr, lookup_cons, if_pos rfl]
        rfl
      · rw [show (if ((q1, q2).1 == k) = true then (k, v) else (q1, q2)) =
            (q1, q2) by simp [hq]]
        have hr : List.lookup k ((q1, q2) :: s) = List.lookup k s := by
          rw [lookup_cons, if_neg (fun h => hq h.symm)]
        rw [hr, lookup_cons, if_neg (fun h => hq h.symm)]
        exact ih

theorem keys_map_replace {α : Type} (t : List (Nat × α)) (k : Nat) (v : α) :
    (t.map (fun p => if (p.1 == k) = true then (k, v) else p)).map (·.1) =
      t.map (·.1) := by
  induction t with
  | nil => rfl
  | cons q s ih =>
      obtain ⟨q1, q2⟩ := q
      rw [List.map_cons, List.map_cons, List.map_cons]
      by_cases hq : q1 = k
      · rw [show (if ((q1, q2).1 == k) = true then (k, v) else (q1, q2)) =
            (k, v) by simp [hq]]
        rw [ih]
        simp [hq]
      · rw [show (if ((q1, q2).1 == k) = true then (k, v) else (q1, q2)) =
            (q1, q2) by simp [hq]]
        rw [ih]

theorem assocSet_lookup_self {α : Type} (l : List (Nat × α)) (k : Nat)
    (v : α) : (assocSet l k v).lookup k = some v := by
  unfold assocSet
  split
  · next hsome =>
      rw [lookup_map_replace_self, if_pos hsome]
  · next hnone =>
      have h0 : l.lookup k = none := by
        cases h : l.lookup k with
        | none => rfl
        | some v' => rw [h] at hnone; simp at hnone
      rw [lookup_append_right h0, lookup_cons, if_pos rfl]

theorem assocSet_lookup_ne {α : Type} (l : List (Nat × α)) {k j : Nat}
    (v : α) (hj : j ≠ k) : (assocSet l k v).lookup j = l.lookup j := by
  unfold assocSet
  split
  · exact lookup_map_replace l k v hj
  · cases h : l.lookup j with
    | some v' => rw [lookup_append_left (by rw [h]; rfl), h]
    | none =>
        rw [lookup_append_right h, lookup_cons, if_neg hj]
        rfl

theorem assocPop_lookup_self {α : Type} (l : List (Nat × α)) (k : Nat) :
    (assocPop l k).lookup k = none := by
  unfold assocPop
  induction l with
  | nil => rfl
  | cons p t ih =>
      obtain ⟨p1, p2⟩ := p
      by_cases hk : p1 = k
      · rw [List.filter_cons_of_neg (by simp [hk])]
        exact ih
      · rw [List.filter_cons_of_pos (by simp [hk])]
        rw [lookup_cons, if_neg (fun h => hk h.symm)]
        exact ih

theorem assocPop_lookup_ne {α : Type} (l : List (Nat × α)) {k j : Nat}
    (hj : j ≠ k) : (assocPop l k).lookup j = l.lookup j := by
  unfold assocPop
  induction l with
  | nil => rfl
  | cons p t ih =>
      obtain ⟨p1, p2⟩ := p
      by_cases hk : p1 = k
      · rw [List.filter_cons_of_neg (by simp [hk])]
        rw [lookup_cons, if_neg (by rw [hk]; exact hj)]
        exact ih
      · rw [List.filter_cons_of_pos (by simp [hk])]
        rw [lookup_cons, lookup_cons]
        by_cases hjp : j = p1
        · rw [if_pos hjp, if_pos hjp]
        · rw [if_neg hjp, if_neg hjp]
          exact ih

theorem assocSet_keys_of_isSome {α : Type} (l : List (Nat × α)) (k : Nat)
    (v : α) (h : (l.lookup k).isSome) :
    (assocSet l k v).map (·.1) = l.map (·.1) := by
  unfold assocSet
  rw [if_pos h]
  exact keys_map_replace l k v

theorem assocSet_keys_of_none {α : Type} (l : List (Nat × α)) (k : Nat)
    (v : α) (h : l.lookup k = none) :
    (assocSet l k v).map (·.1) = l.map (·.1) ++ [k] := by
  unfold assocSet
  rw [if_neg (by simp [h])]
  simp

theorem assocSet_keys_nodup {α : Type} (l : List (Nat × α)) (k : Nat)
    (v : α) (h : (l.map (·.1)).Nodup) :
    ((assocSet l k v).map (·.1)).Nodup := by
  cases hl : l.lookup k with
  | some v' => rw [assocSet_keys_of_isSome l k v (by rw [hl]; rfl)]; exact h
  | none =>
      rw [assocSet_keys_of_none l k v hl]
      rw [List.nodup_append]
      refine ⟨h, List.nodup_singleton k, ?_⟩
      intro a ha hb
      simp only [List.mem_singleton] at hb
      subst hb
      have := lookup_isSome_of_mem_keys ha
      rw [hl] at this
      simp at this

namespace Conn

theorem newestUid_isSome_iff_content (c : Conn) (s : Nat) :
    (c.newestUid s).isSome = (c.content s).isSome := by
  unfold newestUid content
  rw [List.getLast?_map]
  cases (c.store.filter (fun m => m.subject == s)).getLast? <;> rfl

theorem getUid_store (c : Conn) (s : Nat) :
    (c.getUidBySubject s).2.store = c.store := by
  unfold getUidBySubject
  cases cacheLookup c.uidCache s with
  | some u => rfl
  | none =>
      cases c.searchBySubject s with
      | none => rfl
      | some uids => rfl

theorem getUid_supply (c : Conn) (s : Nat) :
    (c.getUidBySubject s).2.supply = c.supply := by
  unfold getUidBySubject
  cases cacheLookup c.uidCache s with
  | some u => rfl
  | none =>
      cases c.searchBySubject s with
      | none => rfl
      | some uids => rfl

theorem getUid_nextUid (c : Conn) (s : Nat) :
    (c.getUidBySubject s).2.nextUid = c.nextUid := by
  unfold getUidBySubject
  cases cacheLookup c.uidCache s with
  | some u => rfl
  | none =>
      cases c.searchBySubject s with
      | none => rfl
      | some uids => rfl

theorem content_congr_store {c c' : Conn} (h : c'.store = c.store) (s : Nat) :
    c'.content s = c.content s := by
  unfold content
  rw [h]

theorem newestUid_congr_store {c c' : Conn} (h : c'.store = c.store)
    (s : Nat) : c'.newestUid s = c.newestUid s := by
  unfold newestUid
  rw [h]

/-- Under a sound cache, `get_uid_by_subject` reports the newest UID. -/
theorem getUid_sound {c : Conn} (hwf : ConnWF c) (s : Nat) :
    (c.getUidBySubject s).1 = c.newestUid s := by
  obtain ⟨_, _, _, hcache, _, _⟩ := hwf
  unfold getUidBySubject
  cases hc : cacheLookup c.uidCache s with
  | some u =>
      simp only []
      unfold cacheLookup at hc
      cases hf : c.uidCache.find? (fun p => p.1 == s) with
      | none => rw [hf] at hc; simp at hc
      | some p =>
          rw [hf] at hc
          simp only [Option.map_some'] at hc
          cases hc
          have hmem := List.mem_of_find?_eq_some hf
          have hps : p.1 = s := by
            have := List.find?_some hf
            simpa using this
          have := hcache p hmem
          rw [hps] at this
          rw [this]
  | none =>
      simp only []
      cases hs : c.searchBySubject s with
      | none =>
          simp only []
          unfold searchBySubject at hs
          unfold newestUid
          by_cases hh :
              ((c.store.filter (fun m => m.subject == s)).map (·.uid)).isEmpty
          · rw [List.isEmpty_iff] at hh
            rw [hh]
            rfl
          · rw [if_neg hh] at hs
            cases hs
      | some uids =>
          simp only []
          unfold searchBySubject at hs
          by_cases hh :
              ((c.store.filter (fun m => m.subject == s)).map (·.uid)).isEmpty
          · rw [if_pos hh] at hs
            cases hs
          · rw [if_neg hh] at hs
            cases hs
            unfold newestUid
            rw [List.isEmpty_iff] at hh
            rw [List.getLastD_eq_getLast?, List.getLast?_eq_getLast _ hh]
            rfl

end Conn

namespace Conn

theorem cacheInsert_mem {cache : List (Nat × Nat)} {s u : Nat} {p : Nat × Nat}
    (h : p ∈ cacheInsert cache s u) : p = (s, u) ∨ p ∈ cache := by
  unfold cacheInsert at h
  rcases List.mem_cons.mp h with h | h
  · exact Or.inl h
  · exact Or.inr (List.mem_of_mem_filter h)

/-- `get_uid_by_subject` preserves well-formedness. -/
theorem getUid_wf {c : Conn} (hwf : ConnWF c) (s : Nat) :
    ConnWF (c.getUidBySubject s).2 := by
  have hres := getUid_sound hwf s
  obtain ⟨h1, h2, h3, hcache, h5, h6⟩ := hwf
  unfold getUidBySubject at hres ⊢
  cases hc : cacheLookup c.uidCache s with
  | some u => exact ⟨h1, h2, h3, hcache, h5, h6⟩
  | none =>
      rw [hc] at hres
      cases hs : c.searchBySubject s with
      | none => exact ⟨h1, h2, h3, hcache, h5, h6⟩
      | some uids =>
          rw [hs] at hres
          simp only [] at hres ⊢
          refine ⟨h1, h2, h3, ?_, h5, h6⟩
          intro p hp
          rcases cacheInsert_mem hp with h | h
          · subst h
            exact hres.symm
          · exact hcache p h

theorem find?_uid_of_mem {m : StoredMsg} :
    ∀ (l : List StoredMsg), l.Pairwise (fun a b => a.uid < b.uid) →
      m ∈ l → l.find? (fun x => x.uid == m.uid) = some m := by
  intro l
  induction l with
  | nil => intro _ h; simp at h
  | cons q t ih =>
      intro hpw hmem
      rcases List.mem_cons.mp hmem with hq | hq
      · subst hq
        rw [List.find?_cons_of_pos]
        simp
      · have hlt : q.uid < m.uid := (List.pairwise_cons.mp hpw).1 m hq
        rw [List.find?_cons_of_neg]
        · exact ih (List.pairwise_cons.mp hpw).2 hq
        · simp
          omega

theorem mem_of_getLast?_some {α : Type} {l : List α} {x : α}
    (h : l.getLast? = some x) : x ∈ l := by
  have hx : x ∈ l.getLast? := h
  obtain ⟨hne, heq⟩ := List.mem_getLast?_eq_getLast hx
  rw [heq]
  exact List.getLast_mem hne

/-- When the store has unique, increasing UIDs, `find?` by the newest UID
of a subject returns the newest message holding that subject. -/
theorem find?_newest {c : Conn} (hwf : ConnWF c) {s u : Nat}
    (h : c.newestUid s = some u) :
    ∃ m, c.store.find? (fun m => m.uid == u) = some m
      ∧ m.subject = s ∧ m.uid = u ∧ c.content s = some m.body := by
  obtain ⟨h1, h2, _, _, _, _⟩ := hwf
  unfold newestUid at h
  rw [List.getLast?_map] at h
  cases hl : (c.store.filter (fun m => m.subject == s)).getLast? with
  | none => rw [hl] at h; cases h
  | some m =>
      rw [hl] at h
      simp only [Option.map_some'] at h
      cases h
      have hmemf : m ∈ c.store.filter (fun m => m.subject == s) :=
        mem_of_getLast?_some hl
      have hmem : m ∈ c.store := List.mem_of_mem_filter hmemf
      have hsub : m.subject = s := by
        have := List.of_mem_filter hmemf
        simpa using this
      refine ⟨m, find?_uid_of_mem c.store h1 hmem, hsub, rfl, ?_⟩
      unfold content
      rw [hl]
      rfl

/-- Opening a message whose subject has content succeeds and returns that
content; only the cache and the trace change. -/
theorem openM_spec {c : Conn} (hwf : ConnWF c) {nm : Nat} {d : Bytes}
    (h : c.content nm = some d) :
    ∃ c', Msg.openM c nm = (.ok ⟨nm, d, false, 0⟩, c')
      ∧ c'.store = c.store ∧ c'.nextUid = c.nextUid ∧ c'.supply = c.supply
      ∧ ConnWF c' := by
  have hsound := getUid_sound hwf nm
  have hnew : (c.newestUid nm).isSome = true := by
    rw [newestUid_isSome_iff_content, h]
    rfl
  cases hu : c.newestUid nm with
  | none => rw [hu] at hnew; cases hnew
  | some u =>
      rw [hu] at hsound
      obtain ⟨m, hfind, hsub, huid, hbody⟩ := find?_newest hwf hu
      rw [h] at hbody
      have hbody' : m.body = d := by cases hbody; rfl
      have hupos : 0 < u := by
        have := (hwf.2.1 m (by
          have := List.mem_of_find?_eq_some hfind
          exact this)).1
        omega
      -- the state after get_uid_by_subject
      have hwf1 : ConnWF (c.getUidBySubject nm).2 := getUid_wf hwf nm
      have hst1 : (c.getUidBySubject nm).2.store = c.store := getUid_store c nm
      unfold Msg.openM
      cases hg : c.getUidBySubject nm with
      | mk uid1 c1 =>
          rw [hg] at hsound hst1 hwf1
          simp only [] at hsound hst1 hwf1
          subst hsound
          simp only []
          have hfind1 : c1.store.find? (fun m => m.uid == u) = some m := by
            rw [hst1, hfind]
          unfold getMessage
          rw [if_neg (by omega)]
          rw [hfind1]
          simp only []
          have hnx := getUid_nextUid c nm
          have hsu := getUid_supply c nm
          rw [hg] at hnx hsu
          simp only [] at hnx hsu
          refine ⟨{ c1 with trace := c1.trace ++ [MailOp.fetch u] }, ?_,
            by simpa using hst1, by simpa using hnx, by simpa using hsu, ?_⟩
          · rw [hbody']
          · obtain ⟨w1, w2, w3, w4, w5, w6⟩ := hwf1
            exact ⟨w1, w2, w3, w4, w5, w6⟩

end Conn

namespace Conn

theorem filter_subject_append (l1 l2 : List StoredMsg) (s : Nat) :
    (l1 ++ l2).filter (fun m => m.subject == s) =
      l1.filter (fun m => m.subject == s) ++
        l2.filter (fun m => m.subject == s) := by
  rw [List.filter_append]

theorem put_content_self (c : Conn) (s : Nat) (d : Bytes) :
    (c.putMessage s d).content s = some d := by
  unfold putMessage content
  simp only []
  rw [filter_subject_append]
  rw [List.filter_cons_of_pos (by simp)]
  rw [List.filter_nil, List.getLast?_concat]
  rfl

theorem put_newest_self (c : Conn) (s : Nat) (d : Bytes) :
    (c.putMessage s d).newestUid s = some c.nextUid := by
  unfold putMessage newestUid
  simp only []
  rw [filter_subject_append]
  rw [List.filter_cons_of_pos (by simp)]
  rw [List.filter_nil, List.map_append]
  simp

theorem put_filter_ne (c : Conn) {s s' : Nat} (d : Bytes) (h : s' ≠ s) :
    (c.putMessage s d).store.filter (fun m => m.subject == s') =
      c.store.filter (fun m => m.subject == s') := by
  unfold putMessage
  simp only []
  rw [filter_subject_append]
  rw [List.filter_cons_of_neg (by simp; omega)]
  simp

theorem put_content_ne (c : Conn) {s s' : Nat} (d : Bytes) (h : s' ≠ s) :
    (c.putMessage s d).content s' = c.content s' := by
  unfold content
  rw [put_filter_ne c d h]

theorem put_newest_ne (c : Conn) {s s' : Nat} (d : Bytes) (h : s' ≠ s) :
    (c.putMessage s d).newestUid s' = c.newestUid s' := by
  unfold newestUid
  rw [put_filter_ne c d h]

/-- Flagging a UID commutes with the subject filter. -/
theorem delete_filter (c : Conn) (u s : Nat) :
    (c.deleteMessage u).store.filter (fun m => m.subject == s) =
      (c.store.filter (fun m => m.subject == s)).map
        (fun m => if m.uid == u then { m with deleted := true } else m) := by
  unfold deleteMessage
  simp only []
  induction c.store with
  | nil => rfl
  | cons q t ih =>
      rw [List.map_cons]
      by_cases hqu : (q.uid == u) = true
      · rw [if_pos hqu]
        by_cases hq : q.subject = s
        · rw [List.filter_cons_of_pos (by simp [hq]),
            List.filter_cons_of_pos (by simp [hq])]
          rw [List.map_cons, if_pos hqu, ih]
        · rw [List.filter_cons_of_neg (by simp [hq]),
            List.filter_cons_of_neg (by simp [hq])]
          exact ih
      · rw [if_neg hqu]
        by_cases hq : q.subject = s
        · rw [List.filter_cons_of_pos (by simp [hq]),
            List.filter_cons_of_pos (by simp [hq])]
          rw [List.map_cons, if_neg hqu, ih]
        · rw [List.filter_cons_of_neg (by simp [hq]),
            List.filter_cons_of_neg (by simp [hq])]
          exact ih

theorem delete_content (c : Conn) (u s : Nat) :
    (c.deleteMessage u).content s = c.content s := by
  unfold content
  rw [delete_filter, List.getLast?_map]
  cases (c.store.filter (fun m => m.subject == s)).getLast? with
  | none => rfl
  | some m =>
      simp only [Option.map_some']
      by_cases hu : m.uid = u <;> simp [hu]

theorem delete_newest (c : Conn) (u s : Nat) :
    (c.deleteMessage u).newestUid s = c.newestUid s := by
  unfold newestUid
  rw [delete_filter, List.map_map, List.getLast?_map, List.getLast?_map]
  cases (c.store.filter (fun m => m.subject == s)).getLast? with
  | none => rfl
  | some m =>
      simp only [Option.map_some', Function.comp]
      by_cases hu : m.uid = u <;> simp [hu]

theorem newest_none_no_subject {c : Conn} {s : Nat}
    (h : c.newestUid s = none) : ∀ x ∈ c.store, x.subject ≠ s := by
  intro x hx hs
  unfold newestUid at h
  rw [List.getLast?_eq_none_iff] at h
  rw [List.map_eq_nil_iff] at h
  rw [List.filter_eq_nil_iff] at h
  have := h x hx
  simp [hs] at this

end Conn

namespace Conn

theorem newest_some_mem {c : Conn} {s u : Nat}
    (h : c.newestUid s = some u) :
    ∃ m ∈ c.store, m.uid = u ∧ m.subject = s := by
  unfold newestUid at h
  rw [List.getLast?_map] at h
  cases hl : (c.store.filter (fun m => m.subject == s)).getLast? with
  | none => rw [hl] at h; cases h
  | some m =>
      rw [hl] at h
      simp only [Option.map_some'] at h
      cases h
      have hmemf := mem_of_getLast?_some hl
      refine ⟨m, List.mem_of_mem_filter hmemf, rfl, ?_⟩
      have := List.of_mem_filter hmemf
      simpa using this

theorem uid_unique {l : List StoredMsg}
    (hpw : l.Pairwise (fun a b => a.uid < b.uid)) {x y : StoredMsg}
    (hx : x ∈ l) (hy : y ∈ l) (huid : x.uid = y.uid) : x = y := by
  induction l with
  | nil => simp at hx
  | cons q t ih =>
      obtain ⟨hq, hpw'⟩ := List.pairwise_cons.mp hpw
      rcases List.mem_cons.mp hx with h1 | h1
      · rcases List.mem_cons.mp hy with h2 | h2
        · rw [h1, h2]
        · subst h1
          have := hq y h2
          omega
      · rcases List.mem_cons.mp hy with h2 | h2
        · subst h2
          have := hq x h1
          omega
        · exact ih hpw' h1 h2

theorem put_cache_mem {cache : List (Nat × Nat)} {s u : Nat}
    {p : Nat × Nat}
    (h : p ∈ cacheInsert (cache.filter (fun q => ¬ q.1 == s)) s u) :
    p = (s, u) ∨ (p ∈ cache ∧ p.1 ≠ s) := by
  rcases cacheInsert_mem h with h1 | h1
  · exact Or.inl h1
  · refine Or.inr ⟨List.mem_of_mem_filter h1, ?_⟩
    have := List.of_mem_filter h1
    simpa using this

/-- `put_message` alone preserves well-formedness when the subject holds no
message yet. -/
theorem put_wf {c : Conn} (hwf : ConnWF c) {s : Nat} (d : Bytes)
    (hs : s < c.supply) (hnone : c.newestUid s = none) :
    ConnWF (c.putMessage s d) := by
  obtain ⟨h1, h2, h3, h4, h5, h6⟩ := hwf
  have hnosub := newest_none_no_subject hnone
  refine ⟨?_, ?_, ?_, ?_, ?_, ?_⟩
  · unfold putMessage
    simp only []
    rw [List.pairwise_append]
    refine ⟨h1, List.pairwise_singleton _ _, ?_⟩
    intro a ha b hb
    simp only [List.mem_singleton] at hb
    subst hb
    exact (h2 a ha).2
  · intro m hm
    unfold putMessage at hm
    simp only [] at hm
    rcases List.mem_append.mp hm with h | h
    · have := h2 m h
      unfold putMessage
      simp only []
      omega
    · simp only [List.mem_singleton] at h
      subst h
      unfold putMessage
      simp only []
      omega
  · intro m hm
    unfold putMessage at hm ⊢
    simp only [] at hm ⊢
    rcases List.mem_append.mp hm with h | h
    · exact h3 m h
    · simp only [List.mem_singleton] at h
      subst h
      exact hs
  · intro p hp
    unfold putMessage at hp
    simp only [] at hp
    rcases put_cache_mem hp with h | ⟨hmem, hne⟩
    · subst h
      exact put_newest_self c s d
    · rw [put_newest_ne c d hne]
      exact h4 p hmem
  · intro m hm hdel
    unfold putMessage at hm
    simp only [] at hm
    rcases List.mem_append.mp hm with h | h
    · have hne : m.subject ≠ s := hnosub m h
      rw [put_newest_ne c d hne]
      exact h5 m h hdel
    · simp only [List.mem_singleton] at h
      subst h
      exact put_newest_self c s d
  · unfold putMessage
    simp only []
    omega

/-- `put_message` followed by `delete_message(old_uid)` preserves
well-formedness when `old_uid` is the newest UID of the subject. -/
theorem put_delete_wf {c : Conn} (hwf : ConnWF c) {s u : Nat} (d : Bytes)
    (hs : s < c.supply) (hold : c.newestUid s = some u) :
    ConnWF ((c.putMessage s d).deleteMessage u) := by
  obtain ⟨msgU, hmemU, huidU, hsubU⟩ := newest_some_mem hold
  obtain ⟨h1, h2, h3, h4, h5, h6⟩ := hwf
  have hub : 0 < u ∧ u < c.nextUid := by
    have := h2 msgU hmemU
    omega
  -- facts about the intermediate state
  have hput_pairwise : (c.putMessage s d).store.Pairwise
      (fun a b => a.uid < b.uid) := by
    unfold putMessage
    simp only []
    rw [List.pairwise_append]
    refine ⟨h1, List.pairwise_singleton _ _, ?_⟩
    intro a ha b hb
    simp only [List.mem_singleton] at hb
    subst hb
    exact (h2 a ha).2
  refine ⟨?_, ?_, ?_, ?_, ?_, ?_⟩
  · unfold deleteMessage
    simp only []
    exact hput_pairwise.map _ (fun a b hab => by
      split <;> split <;> simpa using hab)
  · intro m hm
    unfold deleteMessage at hm
    simp only [] at hm
    obtain ⟨x, hx, hgx⟩ := List.mem_map.mp hm
    have hx2 : 0 < x.uid ∧ x.uid < (c.putMessage s d).nextUid := by
      unfold putMessage at hx ⊢
      simp only [] at hx ⊢
      rcases List.mem_append.mp hx with h | h
      · have := h2 x h
        omega
      · simp only [List.mem_singleton] at h
        subst h
        exact ⟨h6, Nat.lt_succ_self _⟩
    have huid : m.uid = x.uid := by
      rw [← hgx]
      split <;> rfl
    unfold deleteMessage putMessage
    simp only []
    unfold putMessage at hx2
    simp only [] at hx2
    omega
  · intro m hm
    unfold deleteMessage at hm ⊢
    simp only [] at hm ⊢
    obtain ⟨x, hx, hgx⟩ := List.mem_map.mp hm
    have hsub : m.subject = x.subject := by
      rw [← hgx]
      split <;> rfl
    have hx3 : x.subject < (c.putMessage s d).supply := by
      unfold putMessage at hx ⊢
      simp only [] at hx ⊢
      rcases List.mem_append.mp hx with h | h
      · exact h3 x h
      · simp only [List.mem_singleton] at h
        subst h
        exact hs
    unfold putMessage at hx3 ⊢
    simp only [] at hx3 ⊢
    omega
  · intro p hp
    unfold deleteMessage at hp
    simp only [] at hp
    have hp2 := List.mem_of_mem_filter hp
    unfold putMessage at hp2
    simp only [] at hp2
    rw [delete_newest]
    rcases put_cache_mem hp2 with h | ⟨hmem, hne⟩
    · subst h
      exact put_newest_self c s d
    · rw [put_newest_ne c d hne]
      exact h4 p hmem
  · intro m hm hdel
    unfold deleteMessage at hm
    simp only [] at hm
    obtain ⟨x, hx, hgx⟩ := List.mem_map.mp hm
    rw [delete_newest]
    by_cases hxu : (x.uid == u) = true
    · rw [if_pos hxu] at hgx
      rw [← hgx] at hdel
      simp at hdel
    · rw [if_neg hxu] at hgx
      subst hgx
      simp only [beq_iff_eq] at hxu
      unfold putMessage at hx
      simp only [] at hx
      rcases List.mem_append.mp hx with h | h
      · have hlive := h5 x h hdel
        have hsubne : x.subject ≠ s := by
          intro hxs
          rw [hxs, hold] at hlive
          cases hlive
          exact hxu rfl
        rw [put_newest_ne c d hsubne]
        exact hlive
      · simp only [List.mem_singleton] at h
        subst h
        exact put_newest_self c s d
  · unfold deleteMessage putMessage
    simp only []
    omega

end Conn

namespace Msg

/-- `Message.flush` on a dirty message: the message comes back clean, the
subject's newest content becomes the buffer, everything else in the store
is untouched, and well-formedness survives. -/
theorem flush_dirty_spec {m : Msg} {c : Conn} (hwf : ConnWF c)
    (hname : m.name < c.supply) (hdirty : m.dirty = true) :
    ∃ c', m.flush c = ({ m with dirty := false }, c')
      ∧ c'.content m.name = some m.data
      ∧ (∀ s, s ≠ m.name → c'.content s = c.content s)
      ∧ (∀ s, s ≠ m.name → c'.newestUid s = c.newestUid s)
      ∧ ConnWF c'
      ∧ c'.supply = c.supply := by
  unfold flush
  rw [if_pos hdirty]
  have hsound := Conn.getUid_sound hwf m.name
  have hwf1 := Conn.getUid_wf hwf m.name
  have hst1 := Conn.getUid_store c m.name
  have hsup1 := Conn.getUid_supply c m.name
  have hnx1 := Conn.getUid_nextUid c m.name
  cases hg : c.getUidBySubject m.name with
  | mk old c1 =>
      rw [hg] at hsound hwf1 hst1 hsup1 hnx1
      simp only [] at hsound hwf1 hst1 hsup1 hnx1
      subst hsound
      have hname1 : m.name < c1.supply := by rw [hsup1]; exact hname
      have hnew1 : c1.newestUid m.name = c.newestUid m.name :=
        Conn.newestUid_congr_store hst1 m.name
      cases hu : c.newestUid m.name with
      | none =>
          simp only [hu]
          refine ⟨c1.putMessage m.name m.data, rfl,
            Conn.put_content_self c1 m.name m.data, ?_, ?_, ?_, ?_⟩
          · intro s hs
            rw [Conn.put_content_ne c1 m.data hs]
            exact Conn.content_congr_store hst1 s
          · intro s hs
            rw [Conn.put_newest_ne c1 m.data hs]
            exact Conn.newestUid_congr_store hst1 s
          · exact Conn.put_wf hwf1 m.data hname1 (by rw [hnew1, hu])
          · unfold Conn.putMessage
            simp only []
            exact hsup1
      | some u =>
          simp only [hu]
          refine ⟨(c1.putMessage m.name m.data).deleteMessage u, rfl, ?_,
            ?_, ?_, ?_, ?_⟩
          · rw [Conn.delete_content]
            exact Conn.put_content_self c1 m.name m.data
          · intro s hs
            rw [Conn.delete_content, Conn.put_content_ne c1 m.data hs]
            exact Conn.content_congr_store hst1 s
          · intro s hs
            rw [Conn.delete_newest, Conn.put_newest_ne c1 m.data hs]
            exact Conn.newestUid_congr_store hst1 s
          · exact Conn.put_delete_wf hwf1 m.data hname1 (by rw [hnew1, hu])
          · unfold Conn.deleteMessage Conn.putMessage
            simp only []
            exact hsup1

end Msg

namespace Conn

theorem present_eq_filter (c : Conn) (s : Nat) :
    c.present s =
      (c.store.filter (fun m => m.subject == s)).any (fun m => !m.deleted) := by
  unfold present
  induction c.store with
  | nil => rfl
  | cons q t ih =>
      by_cases hq : q.subject = s
      · rw [List.filter_cons_of_pos (by simp [hq])]
        rw [List.any_cons, List.any_cons, ih]
        simp [hq]
      · rw [List.filter_cons_of_neg (by simp [hq])]
        rw [List.any_cons, ih]
        simp [hq]

theorem present_false_of_newest_none {c : Conn} {s : Nat}
    (h : c.newestUid s = none) : c.present s = false := by
  rw [present_eq_filter]
  have := newest_none_no_subject h
  rw [List.any_eq_false]
  intro m hm
  have hmem := List.mem_of_mem_filter hm
  have hsub := List.of_mem_filter hm
  simp only [beq_iff_eq] at hsub
  exact absurd hsub (this m hmem)

/-- Deleting the newest UID of a subject extinguishes its presence: under
`ConnWF`, all other copies of the subject are already flagged. -/
theorem delete_newest_present_false {c : Conn} (hwf : ConnWF c) {s u : Nat}
    (h : c.newestUid s = some u) :
    (c.deleteMessage u).present s = false := by
  obtain ⟨h1, h2, h3, h4, h5, h6⟩ := hwf
  rw [present_eq_filter, delete_filter, List.any_eq_false]
  intro x hx
  obtain ⟨y, hy, hgy⟩ := List.mem_map.mp hx
  by_cases hyu : (y.uid == u) = true
  · rw [if_pos hyu] at hgy
    rw [← hgy]
    simp
  · rw [if_neg hyu] at hgy
    subst hgy
    simp only [beq_iff_eq] at hyu
    have hymem := List.mem_of_mem_filter hy
    have hysub : y.subject = s := by
      have := List.of_mem_filter hy
      simpa using this
    by_cases hdel : y.deleted = false
    · have := h5 y hymem hdel
      rw [hysub, h] at this
      cases this
      exact absurd rfl hyu
    · simp at hdel
      simp [hdel]

/-- Deleting a UID belonging to one subject leaves other subjects'
presence untouched. -/
theorem delete_present_ne {c : Conn} (hwf : ConnWF c) {s u : Nat}
    (hmem : ∃ y ∈ c.store, y.uid = u ∧ y.subject = s) {s' : Nat}
    (hne : s' ≠ s) :
    (c.deleteMessage u).present s' = c.present s' := by
  obtain ⟨yu, hyu, hyuid, hyusub⟩ := hmem
  obtain ⟨h1, _, _, _, _, _⟩ := hwf
  rw [present_eq_filter, present_eq_filter, delete_filter]
  have : ∀ x ∈ c.store.filter (fun m => m.subject == s'),
      (if x.uid == u then { x with deleted := true } else x) = x := by
    intro x hx
    have hxmem := List.mem_of_mem_filter hx
    have hxsub : x.subject = s' := by
      have := List.of_mem_filter hx
      simpa using this
    rw [if_neg ?_]
    intro hxu
    simp only [beq_iff_eq] at hxu
    have := uid_unique h1 hxmem hyu (by omega)
    rw [this] at hxsub
    rw [hyusub] at hxsub
    exact hne hxsub.symm
  rw [List.map_congr_left this, List.map_id']

theorem unlink_present_false {c : Conn} (hwf : ConnWF c) (nm : Nat) :
    (Msg.unlink c nm).present nm = false := by
  unfold Msg.unlink
  have hsound := getUid_sound hwf nm
  have hwf1 := getUid_wf hwf nm
  have hst1 := getUid_store c nm
  cases hg : c.getUidBySubject nm with
  | mk old c1 =>
      rw [hg] at hsound hwf1 hst1
      simp only [] at hsound hwf1 hst1
      subst hsound
      cases hu : c.newestUid nm with
      | none =>
          simp only [hu]
          rw [show c1.present nm =
            ((c1.store.filter (fun m => m.subject == nm)).any
              (fun m => !m.deleted)) from present_eq_filter c1 nm]
          rw [hst1, ← present_eq_filter]
          exact present_false_of_newest_none hu
      | some u =>
          simp only [hu]
          exact delete_newest_present_false hwf1
            (by rw [newestUid_congr_store hst1, hu])

theorem unlink_present_ne {c : Conn} (hwf : ConnWF c) (nm : Nat) {s' : Nat}
    (hne : s' ≠ nm) :
    (Msg.unlink c nm).present s' = c.present s' := by
  unfold Msg.unlink
  have hsound := getUid_sound hwf nm
  have hwf1 := getUid_wf hwf nm
  have hst1 := getUid_store c nm
  cases hg : c.getUidBySubject nm with
  | mk old c1 =>
      rw [hg] at hsound hwf1 hst1
      simp only [] at hsound hwf1 hst1
      subst hsound
      have hpres1 : c1.present s' = c.present s' := by
        rw [present_eq_filter, present_eq_filter, hst1]
      cases hu : c.newestUid nm with
      | none => simpa only [hu] using hpres1
      | some u =>
          simp only [hu]
          obtain ⟨y, hy, hyu, hys⟩ := newest_some_mem
            (show c1.newestUid nm = some u by
              rw [newestUid_congr_store hst1, hu])
          rw [delete_present_ne hwf1 ⟨y, hy, hyu, hys⟩ hne]
          exact hpres1

theorem unlink_wf {c : Conn} (hwf : ConnWF c) (nm : Nat) :
    ConnWF (Msg.unlink c nm) := by
  unfold Msg.unlink
  have hsound := getUid_sound hwf nm
  have hwf1 := getUid_wf hwf nm
  cases hg : c.getUidBySubject nm with
  | mk old c1 =>
      rw [hg] at hsound hwf1
      simp only [] at hsound hwf1
      subst hsound
      cases hu : c.newestUid nm with
      | none => simpa only [hu] using hwf1
      | some u =>
          simp only [hu]
          -- deleting any uid preserves well-formedness
          obtain ⟨h1, h2, h3, h4, h5, h6⟩ := hwf1
          refine ⟨?_, ?_, ?_, ?_, ?_, ?_⟩
          · unfold deleteMessage
            simp only []
            exact h1.map _ (fun a b hab => by
              split <;> split <;> simpa using hab)
          · intro m hm
            unfold deleteMessage at hm ⊢
            simp only [] at hm ⊢
            obtain ⟨x, hx, hgx⟩ := List.mem_map.mp hm
            have : m.uid = x.uid := by rw [← hgx]; split <;> rfl
            have := h2 x hx
            omega
          · intro m hm
            unfold deleteMessage at hm ⊢
            simp only [] at hm ⊢
            obtain ⟨x, hx, hgx⟩ := List.mem_map.mp hm
            have hms : m.subject = x.subject := by
              rw [← hgx]; split <;> rfl
            have := h3 x hx
            omega
          · intro p hp
            unfold deleteMessage at hp
            simp only [] at hp
            rw [delete_newest]
            exact h4 p (List.mem_of_mem_filter hp)
          · intro m hm hdel
            unfold deleteMessage at hm
            simp only [] at hm
            obtain ⟨x, hx, hgx⟩ := List.mem_map.mp hm
            rw [delete_newest]
            by_cases hxu : (x.uid == u) = true
            · rw [if_pos hxu] at hgx
              rw [← hgx] at hdel
              simp at hdel
            · rw [if_neg hxu] at hgx
              subst hgx
              exact h5 x hx hdel
          · unfold deleteMessage
            simp only []
            exact h6

theorem unlink_content (c : Conn) (nm s : Nat) :
    (Msg.unlink c nm).content s = c.content s := by
  unfold Msg.unlink
  have hst1 := getUid_store c nm
  cases hg : c.getUidBySubject nm with
  | mk old c1 =>
      rw [hg] at hst1
      simp only [] at hst1
      cases old with
      | none => exact content_congr_store hst1 s
      | some u =>
          simp only []
          rw [delete_content]
          exact content_congr_store hst1 s

theorem unlink_supply (c : Conn) (nm : Nat) :
    (Msg.unlink c nm).supply = c.supply := by
  unfold Msg.unlink
  have hsup1 := getUid_supply c nm
  cases hg : c.getUidBySubject nm with
  | mk old c1 =>
      rw [hg] at hsup1
      simp only [] at hsup1
      cases old with
      | none => exact hsup1
      | some u =>
          simp only []
          unfold deleteMessage
          simp only []
          exact hsup1

end Conn

/-! ## Message buffer lemmas -/

/-- The pure effect of `Message.write` on the byte buffer when the cursor
sits at `p`: grow with `'.'` padding to `p + |buf|` if needed, then splice
`buf` in at `p`. -/
def spliceAt (d : Bytes) (p : Nat) (buf : Bytes) : Bytes :=
  let d' := if p + buf.length > d.length
    then d ++ List.replicate (p + buf.length - d.length) 46 else d
  d'.take p ++ buf ++ d'.drop (p + buf.length)

theorem msg_write_at (m : Msg) (p : Nat) (buf : Bytes) :
    (m.seek p .set).write buf =
      ⟨m.name, spliceAt m.data p buf, true, p + buf.length⟩ := by
  unfold Msg.seek Msg.write Msg.truncate spliceAt
  simp only []
  split
  · next h =>
      rw [if_neg (by omega)]
  · rfl

theorem spliceAt_length (d : Bytes) (p : Nat) (buf : Bytes) :
    (spliceAt d p buf).length = max d.length (p + buf.length) := by
  unfold spliceAt
  simp only []
  split
  · next hgt =>
      rw [List.append_assoc, List.length_append, List.length_append]
      rw [List.length_take, List.length_append, List.length_replicate]
      rw [List.length_drop, List.length_append, List.length_replicate]
      omega
  · next hle =>
      rw [List.append_assoc, List.length_append, List.length_append]
      rw [List.length_take, List.length_drop]
      omega

theorem spliceAt_slice (d : Bytes) (p : Nat) (buf : Bytes) :
    ((spliceAt d p buf).drop p).take buf.length = buf := by
  have key : ∀ (d' : Bytes), p ≤ d'.length →
      (((d'.take p ++ buf ++ d'.drop (p + buf.length)).drop p).take
        buf.length) = buf := by
    intro d' hp
    rw [List.append_assoc]
    rw [List.drop_append_eq_append_drop]
    have hlt : (d'.take p).length = p := by rw [List.length_take]; omega
    rw [hlt, Nat.sub_self, List.drop_zero]
    rw [List.drop_eq_nil_of_le (by omega), List.nil_append]
    rw [List.take_append_eq_append_take]
    rw [List.take_length, Nat.sub_self, List.take_zero, List.append_nil]
  unfold spliceAt
  simp only []
  split
  · next hgt =>
      apply key
      rw [List.length_append, List.length_replicate]
      omega
  · next hle =>
      apply key
      omega

theorem spliceAt_dots (d : Bytes) (p : Nat) (buf : Bytes) {a b : Nat}
    (ha : d.length ≤ a) (hab : a + b ≤ p) (hb : 0 < b) :
    ((spliceAt d p buf).drop a).take b = List.replicate b 46 := by
  unfold spliceAt
  simp only []
  have hgt : p + buf.length > d.length := by omega
  rw [if_pos hgt]
  have hlen' : (d ++ List.replicate (p + buf.length - d.length) 46).length =
      p + buf.length := by
    rw [List.length_append, List.length_replicate]
    omega
  rw [List.append_assoc]
  rw [List.drop_append_eq_append_drop]
  have hlt : ((d ++ List.replicate (p + buf.length - d.length) 46).take
      p).length = p := by
    rw [List.length_take]
    omega
  rw [hlt]
  rw [List.take_append_eq_append_take]
  have h2 : (((d ++ List.replicate (p + buf.length - d.length) 46).take
      p).drop a).length = p - a := by
    rw [List.length_drop, hlt]
  rw [h2]
  rw [show b - (p - a) = 0 by omega, List.take_zero, List.append_nil]
  rw [List.drop_take]
  rw [List.drop_append_eq_append_drop]
  rw [List.drop_eq_nil_of_le (by omega), List.nil_append]
  rw [List.drop_replicate, List.take_take, List.take_replicate]
  congr 1
  omega

theorem msg_read_at (m : Msg) (p size : Nat) (h : p + size ≤ m.data.length) :
    (m.seek p .set).read size =
      ((m.data.drop p).take size, { m with pos := p + size }) := by
  unfold Msg.seek Msg.read
  simp only []
  rw [if_neg (by omega)]

/-! ## Block-file invariant and block-operation lemmas -/

/-- The logical content of block `i` of a file: the resident Message's
buffer if the block is open, else the newest mail-store copy under the
block's identifier, else nothing (never-written block). -/
def blockContent (f : FileSt) (c : Conn) (i : Nat) : Option Bytes :=
  match f.openMsgs.lookup i with
  | some m => some m.data
  | none =>
      match f.blocks.lookup i with
      | some nm => c.content nm
      | none => none

/-- Well-formedness of a block file against the connection:
unique block indices and identifiers, identifiers drawn from the supply,
resident Messages registered under their identifier, non-resident blocks
backed by store content, clean resident blocks agreeing with the store,
and no block index beyond the end of the file. -/
def FileWF (f : FileSt) (c : Conn) : Prop :=
  (f.blocks.map (·.1)).Nodup
  ∧ (f.openMsgs.map (·.1)).Nodup
  ∧ (f.blocks.map (·.2)).Nodup
  ∧ f.msg.name ∉ f.blocks.map (·.2)
  ∧ f.msg.name < c.supply
  ∧ (∀ p ∈ f.blocks, p.2 < c.supply)
  ∧ (∀ p ∈ f.openMsgs, f.blocks.lookup p.1 = some p.2.name)
  ∧ (∀ p ∈ f.blocks, (f.openMsgs.lookup p.1).isNone →
      (c.content p.2).isSome)
  ∧ (∀ p ∈ f.openMsgs, p.2.dirty = false → c.content p.2.name = some p.2.data)
  ∧ (∀ p ∈ f.blocks, p.1 ≤ f.size / FS_BLOCK_SIZE)

instance (f : FileSt) (c : Conn) : Decidable (FileWF f c) := by
  unfold FileWF
  infer_instance

theorem FS_BLOCK_SIZE_pos : 0 < FS_BLOCK_SIZE := by
  unfold FS_BLOCK_SIZE
  omega

theorem lookup_some_mem {α : Type} {l : List (Nat × α)} {k : Nat} {v : α}
    (h : l.lookup k = some v) : (k, v) ∈ l := by
  induction l with
  | nil => simp [List.lookup] at h
  | cons p t ih =>
      obtain ⟨p1, p2⟩ := p
      rw [lookup_cons] at h
      by_cases hk : k = p1
      · rw [if_pos hk] at h
        cases h
        subst hk
        exact List.mem_cons_self _ _
      · rw [if_neg hk] at h
        exact List.mem_cons_of_mem _ (ih h)

theorem lookup_of_mem_nodup {α : Type} {l : List (Nat × α)} {k : Nat}
    {v : α} (hmem : (k, v) ∈ l) (hnd : (l.map (·.1)).Nodup) :
    l.lookup k = some v := by
  induction l with
  | nil => simp at hmem
  | cons p t ih =>
      obtain ⟨p1, p2⟩ := p
      rw [List.map_cons, List.nodup_cons] at hnd
      rcases List.mem_cons.mp hmem with h | h
      · cases h
        rw [lookup_cons, if_pos rfl]
      · have hk : k ≠ p1 := by
          intro hkp
          subst hkp
          exact hnd.1 (List.mem_map.mpr ⟨(k, v), h, rfl⟩)
        rw [lookup_cons, if_neg hk]
        exact ih h hnd.2

/-- Distinct keys bind distinct values when the value column is nodup. -/
theorem values_injective {α : Type} [DecidableEq α] {l : List (Nat × α)}
    (hnd : (l.map (·.2)).Nodup) {i j : Nat} {a b : α}
    (hi : (i, a) ∈ l) (hj : (j, b) ∈ l) (hij : i ≠ j) : a ≠ b := by
  intro hab
  subst hab
  have hne : (i, a) ≠ (j, a) := by
    intro h
    cases h
    exact hij rfl
  induction l with
  | nil => simp at hi
  | cons p t ih =>
      rw [List.map_cons, List.nodup_cons] at hnd
      rcases List.mem_cons.mp hi with h1 | h1
      · rcases List.mem_cons.mp hj with h2 | h2
        · rw [← h1] at h2
          exact hne h2.symm
        · subst h1
          exact hnd.1 (List.mem_map.mpr ⟨(j, a), h2, rfl⟩)
      · rcases List.mem_cons.mp hj with h2 | h2
        · subst h2
          exact hnd.1 (List.mem_map.mpr ⟨(i, a), h1, rfl⟩)
        · exact ih hnd.2 h1 h2

theorem assocSet_mem {α : Type} {l : List (Nat × α)} {k : Nat} {v : α}
    {p : Nat × α} (h : p ∈ assocSet l k v) :
    p = (k, v) ∨ (p ∈ l ∧ p.1 ≠ k) := by
  unfold assocSet at h
  split at h
  · obtain ⟨q, hq, hgq⟩ := List.mem_map.mp h
    by_cases hqk : (q.1 == k) = true
    · rw [if_pos hqk] at hgq
      exact Or.inl hgq.symm
    · rw [if_neg hqk] at hgq
      subst hgq
      simp only [beq_iff_eq] at hqk
      exact Or.inr ⟨hq, hqk⟩
  · next hnone =>
      rcases List.mem_append.mp h with h1 | h1
      · refine Or.inr ⟨h1, ?_⟩
        intro hpk
        have : (l.lookup k).isSome :=
          lookup_isSome_of_mem_keys (List.mem_map.mpr ⟨p, h1, hpk⟩)
        simp [this] at hnone
      · simp only [List.mem_singleton] at h1
        exact Or.inl h1

theorem assocPop_mem {α : Type} {l : List (Nat × α)} {k : Nat}
    {p : Nat × α} (h : p ∈ assocPop l k) : p ∈ l ∧ p.1 ≠ k := by
  unfold assocPop at h
  refine ⟨List.mem_of_mem_filter h, ?_⟩
  have := List.of_mem_filter h
  simpa using this

theorem assocPop_keys_nodup {α : Type} {l : List (Nat × α)} (k : Nat)
    (h : (l.map (·.1)).Nodup) : ((assocPop l k).map (·.1)).Nodup := by
  unfold assocPop
  induction l with
  | nil => exact h
  | cons p t ih =>
      rw [List.map_cons, List.nodup_cons] at h
      by_cases hk : (p.1 == k) = true
      · rw [List.filter_cons_of_neg (by simp [hk])]
        exact ih h.2
      · rw [List.filter_cons_of_pos (by simp [hk])]
        rw [List.map_cons, List.nodup_cons]
        refine ⟨?_, ih h.2⟩
        intro hmem
        obtain ⟨q, hq, hgq⟩ := List.mem_map.mp hmem
        exact h.1 (List.mem_map.mpr ⟨q, (assocPop_mem hq).1, hgq⟩)

/-- `File.close_block` flushes and evicts a resident block, preserving the
invariants and the logical content of every block. -/
theorem closeBlock_spec {f : FileSt} {c : Conn} (i : Nat) (hf : FileWF f c)
    (hc : ConnWF c) :
    ∃ f' c', f.closeBlock c i = (f', c')
      ∧ FileWF f' c' ∧ ConnWF c'
      ∧ (∀ j, blockContent f' c' j = blockContent f c j)
      ∧ f'.blocks = f.blocks ∧ f'.pos = f.pos ∧ f'.size = f.size
      ∧ f'.msg = f.msg ∧ f'.dirty = f.dirty ∧ c'.supply = c.supply := by
  obtain ⟨w1, w2, w3, w4, w5, w6, w7, w8, w9, w10⟩ := hf
  unfold FileSt.closeBlock
  cases hl : f.openMsgs.lookup i with
  | none =>
      exact ⟨f, c, rfl, ⟨w1, w2, w3, w4, w5, w6, w7, w8, w9, w10⟩, hc,
        fun j => rfl, rfl, rfl, rfl, rfl, rfl, rfl⟩
  | some m =>
      simp only []
      have hmmem : (i, m) ∈ f.openMsgs := lookup_some_mem hl
      have hbl : f.blocks.lookup i = some m.name := w7 (i, m) hmmem
      have hblmem : (i, m.name) ∈ f.blocks := lookup_some_mem hbl
      have hname : m.name < c.supply := w6 _ hblmem
      -- names of other blocks differ from this block's name
      have hnamene : ∀ p ∈ f.blocks, p.1 ≠ i → p.2 ≠ m.name := by
        intro p hp hpi
        exact values_injective w3 hp hblmem hpi
      cases hdirty : m.dirty with
      | false =>
          unfold Msg.close
          rw [c10_flush_clean_noop m c hdirty]
          refine ⟨_, c, rfl, ?_, hc, ?_, rfl, rfl, rfl, rfl, rfl, rfl⟩
          · refine ⟨w1, assocPop_keys_nodup i w2, w3, w4, w5, w6, ?_, ?_, ?_, w10⟩
            · intro p hp
              exact w7 p (assocPop_mem hp).1
            · intro p hp hnone
              by_cases hpi : p.1 = i
              · have hpname : p.2 = m.name := by
                  have h2 := lookup_of_mem_nodup
                    (show ((p.1, p.2) : Nat × Nat) ∈ f.blocks by
                      simpa using hp) w1
                  rw [hpi, hbl] at h2
                  exact Option.some.inj h2.symm
                rw [hpname, w9 (i, m) hmmem hdirty]
                rfl
              · rw [assocPop_lookup_ne _ hpi] at hnone
                exact w8 p hp hnone
            · intro p hp hclean
              exact w9 p (assocPop_mem hp).1 hclean
          · intro j
            unfold blockContent
            by_cases hji : j = i
            · rw [hji, assocPop_lookup_self, hl, hbl]
              exact w9 (i, m) hmmem hdirty
            · rw [assocPop_lookup_ne _ hji]
      | true =>
          unfold Msg.close
          obtain ⟨c', hfl, hcontent, hcontent_ne, hnewest_ne, hcwf', hsup'⟩ :=
            Msg.flush_dirty_spec hc hname hdirty
          rw [hfl]
          refine ⟨_, c', rfl, ?_, hcwf', ?_, rfl, rfl, rfl, rfl, rfl, hsup'⟩
          · refine ⟨w1, assocPop_keys_nodup i w2, w3, w4,
              by rw [hsup']; exact w5, ?_, ?_, ?_, ?_, w10⟩
            · intro p hp
              rw [hsup']
              exact w6 p hp
            · intro p hp
              exact w7 p (assocPop_mem hp).1
            · intro p hp hnone
              by_cases hpi : p.1 = i
              · have hpname : p.2 = m.name := by
                  have h2 := lookup_of_mem_nodup
                    (show ((p.1, p.2) : Nat × Nat) ∈ f.blocks by
                      simpa using hp) w1
                  rw [hpi, hbl] at h2
                  exact Option.some.inj h2.symm
                rw [hpname, hcontent]
                rfl
              · rw [assocPop_lookup_ne _ hpi] at hnone
                have := w8 p hp hnone
                rw [hcontent_ne p.2 (hnamene p hp hpi)]
                exact this
            · intro p hp hclean
              obtain ⟨hpmem, hpi⟩ := assocPop_mem hp
              have hpbl : f.blocks.lookup p.1 = some p.2.name := w7 p hpmem
              have hpblmem := lookup_some_mem hpbl
              rw [hcontent_ne p.2.name (hnamene (p.1, p.2.name) hpblmem hpi)]
              exact w9 p hpmem hclean
          · intro j
            unfold blockContent
            by_cases hji : j = i
            · rw [hji, assocPop_lookup_self, hl, hbl]
              exact hcontent
            · rw [assocPop_lookup_ne _ hji]
              cases hlj : f.openMsgs.lookup j with
              | some mj => rfl
              | none =>
                  cases hbj : f.blocks.lookup j with
                  | none => rfl
                  | some nmj =>
                      have hbjmem := lookup_some_mem hbj
                      exact hcontent_ne nmj (hnamene (j, nmj) hbjmem hji)

/-- `File.seek` only moves the cursor (possibly flushing the block being
left); invariants and logical content are untouched. -/
theorem seek_spec {f : FileSt} {c : Conn} (off : Nat) (w : Whence)
    (hf : FileWF f c) (hc : ConnWF c) :
    ∃ f' c', f.seek c off w = (f', c')
      ∧ FileWF f' c' ∧ ConnWF c'
      ∧ (∀ j, blockContent f' c' j = blockContent f c j)
      ∧ f'.blocks = f.blocks
      ∧ f'.pos = (match w with
          | .set => off
          | .cur => f.pos + off
          | .sEnd => f.size - off)
      ∧ f'.size = f.size ∧ f'.msg = f.msg ∧ f'.dirty = f.dirty
      ∧ c'.supply = c.supply := by
  unfold FileSt.seek
  simp only []
  split
  · next hcross =>
      obtain ⟨f1, c1, heq, hwf1, hc1, hcont1, hbl1, hpos1, hsz1, hmsg1,
        hdirty1, hsup1⟩ :=
        closeBlock_spec (f.pos / FS_BLOCK_SIZE) hf hc
      rw [heq]
      refine ⟨_, c1, rfl, ?_, hc1, ?_, hbl1, rfl, hsz1, hmsg1, hdirty1, hsup1⟩
      · obtain ⟨u1, u2, u3, u4, u5, u6, u7, u8, u9, u10⟩ := hwf1
        exact ⟨u1, u2, u3, u4, u5, u6, u7, u8, u9, by rw [← hsz1]; exact u10⟩
      · intro j
        unfold blockContent at hcont1 ⊢
        exact hcont1 j
  · exact ⟨_, c, rfl, hf, hc, fun j => rfl, rfl, rfl, rfl, rfl, rfl, rfl⟩

/-- `File.open_block` on a block with logical content: returns a Message
holding that content, leaves every block's logical content in place. -/
theorem openBlock_mem_spec {f : FileSt} {c : Conn} {i : Nat} {d : Bytes}
    (hf : FileWF f c) (hc : ConnWF c) (hd : blockContent f c i = some d) :
    ∃ m f' c', f.openBlock c i = (.ok m, f', c')
      ∧ m.data = d
      ∧ FileWF f' c' ∧ ConnWF c'
      ∧ (∀ j, blockContent f' c' j = blockContent f c j)
      ∧ f'.blocks = f.blocks ∧ f'.pos = f.pos ∧ f'.size = f.size
      ∧ f'.msg = f.msg ∧ f'.dirty = f.dirty ∧ c'.supply = c.supply
      ∧ f'.openMsgs.lookup i = some m
      ∧ (∀ j, j ≠ i → f'.openMsgs.lookup j = f.openMsgs.lookup j) := by
  obtain ⟨w1, w2, w3, w4, w5, w6, w7, w8, w9, w10⟩ := hf
  unfold FileSt.openBlock
  unfold blockContent at hd
  cases hl : f.openMsgs.lookup i with
  | some m =>
      rw [hl] at hd
      simp only [] at hd
      cases hd
      exact ⟨m, f, c, rfl, rfl, ⟨w1, w2, w3, w4, w5, w6, w7, w8, w9, w10⟩,
        hc, fun j => rfl, rfl, rfl, rfl, rfl, rfl, rfl, hl, fun j _ => rfl⟩
  | none =>
      rw [hl] at hd
      simp only [] at hd
      cases hb : f.blocks.lookup i with
      | none => rw [hb] at hd; cases hd
      | some nm =>
          rw [hb] at hd
          simp only [] at hd
          obtain ⟨c', hopen, hst', hnx', hsup', hcwf'⟩ :=
            Conn.openM_spec hc hd
          simp only []
          rw [hopen]
          simp only []
          have hbmem := lookup_some_mem hb
          refine ⟨_, _, c', rfl, rfl, ?_, hcwf', ?_, rfl, rfl, rfl, rfl, rfl,
            hsup', assocSet_lookup_self _ _ _,
            fun j hj => assocSet_lookup_ne _ _ hj⟩
          · have hcont' : ∀ s, c'.content s = c.content s :=
              Conn.content_congr_store hst'
            refine ⟨w1, assocSet_keys_nodup _ _ _ w2, w3, w4,
              by rw [hsup']; exact w5, ?_, ?_, ?_, ?_, w10⟩
            · intro p hp
              rw [hsup']
              exact w6 p hp
            · intro p hp
              rcases assocSet_mem hp with h | ⟨hpm, hpne⟩
              · subst h
                exact hb
              · exact w7 p hpm
            · intro p hp hnone
              by_cases hpi : p.1 = i
              · rw [hpi, assocSet_lookup_self] at hnone
                cases hnone
              · rw [assocSet_lookup_ne _ _ hpi] at hnone
                rw [hcont']
                exact w8 p hp hnone
            · intro p hp hclean
              rcases assocSet_mem hp with h | ⟨hpm, hpne⟩
              · subst h
                simp only [] at hclean ⊢
                rw [hcont']
                exact hd
              · rw [hcont']
                exact w9 p hpm hclean
          · intro j
            unfold blockContent
            by_cases hji : j = i
            · rw [hji, assocSet_lookup_self, hl, hb]
              exact hd.symm
            · rw [assocSet_lookup_ne _ _ hji]
              cases f.openMsgs.lookup j with
              | some mj => rfl
              | none =>
                  cases f.blocks.lookup j with
                  | none => rfl
                  | some nmj => exact Conn.content_congr_store hst' nmj

/-- `File.open_block` on a never-written block index allocates a fresh,
empty, dirty block Message under a fresh identifier. -/
theorem openBlock_create_spec {f : FileSt} {c : Conn} {i : Nat}
    (hf : FileWF f c) (hc : ConnWF c)
    (hmiss : f.blocks.lookup i = none)
    (hi : i ≤ f.size / FS_BLOCK_SIZE) :
    ∃ m f' c', f.openBlock c i = (.ok m, f', c')
      ∧ m.data = []
      ∧ FileWF f' c' ∧ ConnWF c'
      ∧ blockContent f' c' i = some []
      ∧ (∀ j, j ≠ i → blockContent f' c' j = blockContent f c j)
      ∧ f'.blocks = f.blocks ++ [(i, c.supply)]
      ∧ f'.pos = f.pos ∧ f'.size = f.size
      ∧ f'.msg = f.msg ∧ f'.dirty = true ∧ c'.supply = c.supply + 1
      ∧ c'.store = c.store ∧ c'.nextUid = c.nextUid
      ∧ f'.openMsgs.lookup i = some m
      ∧ (∀ j, j ≠ i → f'.openMsgs.lookup j = f.openMsgs.lookup j) := by
  obtain ⟨w1, w2, w3, w4, w5, w6, w7, w8, w9, w10⟩ := hf
  have hnores : f.openMsgs.lookup i = none := by
    cases hl : f.openMsgs.lookup i with
    | none => rfl
    | some m =>
        have := w7 (i, m) (lookup_some_mem hl)
        rw [hmiss] at this
        cases this
  unfold FileSt.openBlock FileSt.createBlock Conn.freshName
  rw [hnores, hmiss]
  simp only []
  have hblocks' : assocSet f.blocks i c.supply = f.blocks ++ [(i, c.supply)] := by
    unfold assocSet
    rw [if_neg (by simp [hmiss])]
  have hopen' : assocSet f.openMsgs i (⟨c.supply, [], true, 0⟩ : Msg) =
      f.openMsgs ++ [(i, ⟨c.supply, [], true, 0⟩)] := by
    unfold assocSet
    rw [if_neg (by simp [hnores])]
  refine ⟨_, _, _, rfl, rfl, ?_, ?_, ?_, ?_, by
      simp only []; exact hblocks', rfl, rfl, rfl, rfl, rfl, rfl, rfl,
    assocSet_lookup_self _ _ _, fun j hj => assocSet_lookup_ne _ _ hj⟩
  · -- FileWF of the state holding the fresh block
    refine ⟨?_, ?_, ?_, ?_, by simp only []; omega, ?_, ?_, ?_, ?_, ?_⟩
    · simp only []
      rw [hblocks']
      rw [List.map_append, List.nodup_append]
      refine ⟨w1, by simp, ?_⟩
      intro a ha hb
      simp only [List.map_cons, List.map_nil, List.mem_singleton] at hb
      subst hb
      have := lookup_isSome_of_mem_keys ha
      rw [hmiss] at this
      cases this
    · simp only []
      exact assocSet_keys_nodup _ _ _ w2
    · simp only []
      rw [hblocks']
      rw [List.map_append, List.nodup_append]
      refine ⟨w3, by simp, ?_⟩
      intro a ha hb
      simp only [List.map_cons, List.map_nil, List.mem_singleton] at hb
      subst hb
      obtain ⟨p, hp, hpa⟩ := List.mem_map.mp ha
      have := w6 p hp
      omega
    · simp only []
      rw [hblocks']
      rw [List.map_append, List.mem_append]
      intro hmem
      rcases hmem with h | h
      · exact w4 h
      · simp only [List.map_cons, List.map_nil, List.mem_singleton] at h
        omega
    · simp only []
      intro p hp
      rw [hblocks'] at hp
      rcases List.mem_append.mp hp with h | h
      · have := w6 p h
        omega
      · simp only [List.mem_singleton] at h
        subst h
        omega
    · simp only []
      intro p hp
      rcases assocSet_mem hp with h | ⟨hpm, hpne⟩
      · subst h
        simp only []
        rw [hblocks']
        rw [lookup_append_right hmiss, lookup_cons, if_pos rfl]
      · rw [hblocks', lookup_append_left
          (by rw [w7 p hpm]; rfl)]
        exact w7 p hpm
    · simp only []
      intro p hp hnone
      rw [hblocks'] at hp
      rcases List.mem_append.mp hp with h | h
      · by_cases hpi : p.1 = i
        · have h2 := lookup_isSome_of_mem_keys
            (List.mem_map.mpr ⟨p, h, hpi⟩)
          rw [hmiss] at h2
          cases h2
        · rw [assocSet_lookup_ne _ _ hpi] at hnone
          exact w8 p h hnone
      · simp only [List.mem_singleton] at h
        subst h
        rw [assocSet_lookup_self] at hnone
        cases hnone
    · simp only []
      intro p hp hclean
      rcases assocSet_mem hp with h | ⟨hpm, hpne⟩
      · subst h
        simp only [] at hclean
        cases hclean
      · exact w9 p hpm hclean
    · simp only []
      intro p hp
      rw [hblocks'] at hp
      rcases List.mem_append.mp hp with h | h
      · exact w10 p h
      · simp only [List.mem_singleton] at h
        subst h
        exact hi
  · obtain ⟨g1, g2, g3, g4, g5, g6⟩ := hc
    exact ⟨g1, g2, fun m hm => by have := g3 m hm; simp only []; omega,
      g4, g5, g6⟩
  · unfold blockContent
    simp only []
    rw [assocSet_lookup_self]
  · intro j hj
    unfold blockContent
    simp only []
    rw [assocSet_lookup_ne _ _ hj]
    cases f.openMsgs.lookup j with
    | some mj => rfl
    | none =>
        rw [hblocks']
        cases hbj : f.blocks.lookup j with
        | some nmj =>
            rw [lookup_append_left (by rw [hbj]; rfl), hbj]
            rfl
        | none =>
            rw [lookup_append_right hbj, lookup_cons, if_neg hj]
            rfl

/-- Writing the mutated block object back into the resident table (the
explicit form of the source's shared-object aliasing). -/
theorem writeback_spec {f : FileSt} {c : Conn} {i : Nat} {m : Msg}
    (hf : FileWF f c) (hres : f.openMsgs.lookup i = some m)
    (m' : Msg) (hname : m'.name = m.name) (hdirty : m'.dirty = true) :
    FileWF { f with openMsgs := assocSet f.openMsgs i m' } c
      ∧ blockContent { f with openMsgs := assocSet f.openMsgs i m' } c i =
          some m'.data
      ∧ (∀ j, j ≠ i →
          blockContent { f with openMsgs := assocSet f.openMsgs i m' } c j =
            blockContent f c j) := by
  obtain ⟨w1, w2, w3, w4, w5, w6, w7, w8, w9, w10⟩ := hf
  have hmmem : (i, m) ∈ f.openMsgs := lookup_some_mem hres
  refine ⟨⟨w1, assocSet_keys_nodup _ _ _ w2, w3, w4, w5, w6, ?_, ?_, ?_, w10⟩,
    ?_, ?_⟩
  · intro p hp
    rcases assocSet_mem hp with h | ⟨hpm, hpne⟩
    · subst h
      simp only []
      rw [hname]
      exact w7 (i, m) hmmem
    · exact w7 p hpm
  · intro p hp hnone
    by_cases hpi : p.1 = i
    · rw [hpi, assocSet_lookup_self] at hnone
      cases hnone
    · rw [assocSet_lookup_ne _ _ hpi] at hnone
      exact w8 p hp hnone
  · intro p hp hclean
    rcases assocSet_mem hp with h | ⟨hpm, hpne⟩
    · subst h
      simp only [] at hclean
      rw [hclean] at hdirty
      cases hdirty
    · exact w9 p hpm hclean
  · unfold blockContent
    simp only []
    rw [assocSet_lookup_self]
  · intro j hj
    unfold blockContent
    simp only []
    rw [assocSet_lookup_ne _ _ hj]

/-- `File.truncate` completes without the RuntimeError when no block index
exceeds the new end block, only setting `size` and `dirty`. -/
theorem truncate_nodelete_spec {f : FileSt} {c : Conn} (size : Nat)
    (hkeys : ∀ p ∈ f.blocks, p.1 ≤ size / FS_BLOCK_SIZE) :
    f.truncate c size = ({ f with size := size, dirty := true }, c, false) := by
  unfold FileSt.truncate
  simp only []
  rw [List.find?_eq_none.mpr ?none]
  case none =>
    intro k hk
    obtain ⟨p, hp, hpk⟩ := List.mem_map.mp hk
    simp only [decide_eq_true_eq, not_lt]
    rw [← hpk]
    exact hkeys p hp

/-! ## Write/read loop arithmetic

For a transfer of `n` bytes starting at absolute offset `o`, block `i`
sees the transfer enter at in-block offset `boff`, carry `bws` bytes, with
`wo` bytes of the buffer already consumed. -/

def wo (o n i : Nat) : Nat := min n (i * FS_BLOCK_SIZE - o)

def boff (o n i : Nat) : Nat := (o + wo o n i) % FS_BLOCK_SIZE

def bws (o n i : Nat) : Nat :=
  min (FS_BLOCK_SIZE - boff o n i) (n - wo o n i)

theorem wo_start (o n : Nat) : wo o n (o / FS_BLOCK_SIZE) = 0 := by
  unfold wo FS_BLOCK_SIZE
  omega

theorem wo_le (o n i : Nat) : wo o n i ≤ n := Nat.min_le_left _ _

theorem wo_step (o n i : Nat) (hi : o / FS_BLOCK_SIZE ≤ i) :
    wo o n i + bws o n i = wo o n (i + 1) := by
  unfold FS_BLOCK_SIZE at hi
  unfold bws boff wo FS_BLOCK_SIZE
  omega

theorem wo_final (o n : Nat) :
    wo o n ((o + n) / FS_BLOCK_SIZE + 1) = n := by
  unfold wo FS_BLOCK_SIZE
  omega

theorem boff_bws_le (o n i : Nat) :
    boff o n i + bws o n i ≤ FS_BLOCK_SIZE := by
  unfold bws boff FS_BLOCK_SIZE
  omega

theorem boff_start (o n : Nat) :
    boff o n (o / FS_BLOCK_SIZE) = o % FS_BLOCK_SIZE := by
  unfold boff wo FS_BLOCK_SIZE
  omega

theorem bws_clamp (o n i : Nat) :
    (if FS_BLOCK_SIZE - boff o n i > n - wo o n i
      then n - wo o n i else FS_BLOCK_SIZE - boff o n i) = bws o n i := by
  unfold bws boff wo FS_BLOCK_SIZE
  split <;> omega

/-! ## Write/read loop specifications -/

theorem bws_le_rem (o n i : Nat) : bws o n i ≤ n - wo o n i := by
  unfold bws
  omega

theorem wo_mono (o n : Nat) {i i' : Nat} (h : i ≤ i') :
    wo o n i ≤ wo o n i' := by
  unfold wo FS_BLOCK_SIZE
  have h2 : i * 262144 ≤ i' * 262144 := Nat.mul_le_mul_right _ h
  omega

theorem chunk_length (buf : Bytes) (o n i : Nat) (hn : buf.length = n) :
    ((buf.drop (wo o n i)).take (bws o n i)).length = bws o n i := by
  rw [List.length_take, List.length_drop, hn]
  have h1 := bws_le_rem o n i
  have h2 := wo_le o n i
  omega

theorem bws_clamp_read (o n i : Nat) :
    (if wo o n i + (FS_BLOCK_SIZE - boff o n i) > n
      then n - wo o n i else FS_BLOCK_SIZE - boff o n i) = bws o n i := by
  unfold bws boff wo FS_BLOCK_SIZE
  split <;> omega

theorem blockContent_isSome_iff {f : FileSt} {c : Conn} (hf : FileWF f c)
    (i : Nat) : (blockContent f c i).isSome ↔ (f.blocks.lookup i).isSome := by
  obtain ⟨w1, w2, w3, w4, w5, w6, w7, w8, w9, w10⟩ := hf
  unfold blockContent
  cases hl : f.openMsgs.lookup i with
  | some m =>
      have hbl := w7 (i, m) (lookup_some_mem hl)
      rw [hbl]
      simp
  | none =>
      cases hb : f.blocks.lookup i with
      | none => simp
      | some nm =>
          have h8 := w8 (i, nm) (lookup_some_mem hb) (by rw [hl]; rfl)
          simp only []
          simp [h8]

/-- `File.open_block` under the invariant (with the index in range): the
returned Message carries the block's logical content (empty for a
never-written block), now resident; everything else is stable. -/
theorem openBlock_total_spec {f : FileSt} {c : Conn} {i : Nat}
    (hf : FileWF f c) (hc : ConnWF c) (hi : i ≤ f.size / FS_BLOCK_SIZE) :
    ∃ m f1 c1, f.openBlock c i = (.ok m, f1, c1)
      ∧ m.data = (blockContent f c i).getD []
      ∧ FileWF f1 c1 ∧ ConnWF c1
      ∧ blockContent f1 c1 i = some m.data
      ∧ (∀ j, j ≠ i → blockContent f1 c1 j = blockContent f c j)
      ∧ f1.pos = f.pos ∧ f1.size = f.size ∧ f1.msg = f.msg
      ∧ f1.openMsgs.lookup i = some m
      ∧ (∀ k, (f1.blocks.lookup k).isSome ↔
          (f.blocks.lookup k).isSome ∨ k = i) := by
  cases hbc : blockContent f c i with
  | some d =>
      obtain ⟨m, f1, c1, hopen, hdata, hwf1, hc1, hcont, hbl, hpos, hsz,
        hmsg, hdirty, hsup, hres, hresne⟩ := openBlock_mem_spec hf hc hbc
      refine ⟨m, f1, c1, hopen, by rw [hdata]; rfl, hwf1, hc1, ?_,
        fun j _ => hcont j, hpos, hsz, hmsg, hres, ?_⟩
      · rw [hcont i, hbc, hdata]
      · intro k
        rw [hbl]
        constructor
        · exact Or.inl
        · rintro (h | hki)
          · exact h
          · subst hki
            exact (blockContent_isSome_iff hf k).mp (by rw [hbc]; rfl)
  | none =>
      have hmiss : f.blocks.lookup i = none := by
        have hiff := blockContent_isSome_iff hf i
        cases hb : f.blocks.lookup i with
        | none => rfl
        | some nm =>
            rw [hbc, hb] at hiff
            simp at hiff
      obtain ⟨m, f1, c1, hopen, hdata, hwf1, hc1, hconti, hcontne, hbl,
        hpos, hsz, hmsg, hdirty, hsup, hst, hnx, hres, hresne⟩ :=
        openBlock_create_spec hf hc hmiss hi
      refine ⟨m, f1, c1, hopen, by rw [hdata]; rfl, hwf1, hc1,
        by rw [hconti, hdata], hcontne, hpos, hsz, hmsg, hres, ?_⟩
      intro k
      rw [hbl]
      by_cases hki : k = i
      · subst hki
        rw [lookup_append_right hmiss, lookup_cons, if_pos rfl]
        simp
      · cases hbk : f.blocks.lookup k with
        | some v =>
            rw [lookup_append_left (by rw [hbk]; rfl), hbk]
            simp
        | none =>
            rw [lookup_append_right hbk, lookup_cons, if_neg hki]
            simp [hki]

/-- Writing back a resident block object whose name, buffer and dirty flag
are unchanged (the effect of a read on the shared block object). -/
theorem writeback_clean_spec {f : FileSt} {c : Conn} {i : Nat} {m : Msg}
    (hf : FileWF f c) (hres : f.openMsgs.lookup i = some m)
    (m' : Msg) (hname : m'.name = m.name) (hdata : m'.data = m.data)
    (hdirty : m'.dirty = m.dirty) :
    FileWF { f with openMsgs := assocSet f.openMsgs i m' } c
      ∧ (∀ j, blockContent { f with openMsgs := assocSet f.openMsgs i m' } c j
          = blockContent f c j) := by
  obtain ⟨w1, w2, w3, w4, w5, w6, w7, w8, w9, w10⟩ := hf
  have hmmem : (i, m) ∈ f.openMsgs := lookup_some_mem hres
  refine ⟨⟨w1, assocSet_keys_nodup _ _ _ w2, w3, w4, w5, w6, ?_, ?_, ?_, w10⟩,
    ?_⟩
  · intro p hp
    rcases assocSet_mem hp with h | ⟨hpm, hpne⟩
    · subst h
      simp only []
      rw [hname]
      exact w7 (i, m) hmmem
    · exact w7 p hpm
  · intro p hp hnone
    by_cases hpi : p.1 = i
    · rw [hpi, assocSet_lookup_self] at hnone
      cases hnone
    · rw [assocSet_lookup_ne _ _ hpi] at hnone
      exact w8 p hp hnone
  · intro p hp hclean
    rcases assocSet_mem hp with h | ⟨hpm, hpne⟩
    · subst h
      simp only [] at hclean
      rw [hname, hdata]
      exact w9 (i, m) hmmem (by rw [← hdirty]; exact hclean)
    · exact w9 p hpm hclean
  · intro j
    unfold blockContent
    simp only []
    by_cases hji : j = i
    · rw [hji, assocSet_lookup_self, hres]
      simp only []
      rw [hdata]
    · rw [assocSet_lookup_ne _ _ hji]

/-- The write loop (`File.write`'s `for block_id in range(...)`): given the
cursor at `o + wo o n i` and blocks `i, ..., i+r-1` still to process, the
loop succeeds, splices each block's chunk of the buffer into the block's
prior content at the block-local offset, and allocates exactly the block
indices it visits. -/
theorem writeGo_spec (o n : Nat) (buf : Bytes) (hn : buf.length = n) :
    ∀ (r i : Nat) (f : FileSt) (c : Conn),
    FileWF f c → ConnWF c →
    o / FS_BLOCK_SIZE ≤ i →
    i + r ≤ (o + n) / FS_BLOCK_SIZE + 1 →
    o + n ≤ f.size →
    f.pos = o + wo o n i →
    ∃ f' c',
      f.writeGo c buf (List.range' i r) (wo o n i) = (.ok (), f', c')
      ∧ FileWF f' c' ∧ ConnWF c'
      ∧ (∀ j, j < i ∨ i + r ≤ j → blockContent f' c' j = blockContent f c j)
      ∧ (∀ j, i ≤ j → j < i + r →
          blockContent f' c' j =
            some (spliceAt ((blockContent f c j).getD []) (boff o n j)
              ((buf.drop (wo o n j)).take (bws o n j))))
      ∧ f'.pos = o + wo o n (i + r)
      ∧ f'.size = f.size ∧ f'.msg = f.msg
      ∧ (∀ k, (f'.blocks.lookup k).isSome ↔
          (f.blocks.lookup k).isSome ∨ (i ≤ k ∧ k < i + r)) := by
  intro r
  induction r with
  | zero =>
      intro i f c hf hc hi hir hsz hpos
      refine ⟨f, c, rfl, hf, hc, fun j _ => rfl, ?_, ?_, rfl, rfl, ?_⟩
      · intro j hj1 hj2
        omega
      · rw [Nat.add_zero]
        exact hpos
      · intro k
        constructor
        · exact Or.inl
        · rintro (h | ⟨h1, h2⟩)
          · exact h
          · omega
  | succ r ih =>
      intro i f c hf hc hi hir hsz hpos
      have hiB : i ≤ f.size / FS_BLOCK_SIZE := by
        have h1 : i ≤ (o + n) / FS_BLOCK_SIZE := by omega
        exact le_trans h1 (Nat.div_le_div_right hsz)
      obtain ⟨m, f1, c1, hopen, hdata, hwf1, hc1, hcont1, hcontne1, hpos1,
        hsz1, hmsg1, hres1, hkeys1⟩ := openBlock_total_spec hf hc hiB
      rw [List.range'_succ]
      unfold FileSt.writeGo
      simp only []
      rw [hopen]
      simp only []
      rw [hpos, hn]
      rw [show (o + wo o n i) % FS_BLOCK_SIZE = boff o n i from rfl]
      rw [bws_clamp o n i]
      rw [msg_write_at m (boff o n i) ((buf.drop (wo o n i)).take (bws o n i))]
      obtain ⟨hwf2, hcont2i, hcont2ne⟩ := writeback_spec hwf1 hres1
        ⟨m.name, spliceAt m.data (boff o n i)
            ((buf.drop (wo o n i)).take (bws o n i)), true,
          boff o n i + ((buf.drop (wo o n i)).take (bws o n i)).length⟩
        rfl rfl
      obtain ⟨f3, c3, hseek, hwf3, hc3, hcont3, hbl3, hpos3, hsz3, hmsg3,
        hdirty3, hsup3⟩ := seek_spec (bws o n i) .cur hwf2 hc1
      rw [hseek]
      simp only []
      rw [wo_step o n i hi]
      have hpos3' : f3.pos = o + wo o n (i + 1) := by
        rw [hpos3]
        simp only []
        rw [hpos1, hpos, ← wo_step o n i hi]
        omega
      have hsz3' : f3.size = f.size := by rw [hsz3]; exact hsz1
      obtain ⟨f', c', heq', hwf', hc', hpres', hwritten', hpos', hsz',
        hmsg', hkeys'⟩ := ih (i + 1) f3 c3 hwf3 hc3 (by omega) (by omega)
          (by rw [hsz3']; exact hsz) hpos3'
      rw [heq']
      refine ⟨f', c', rfl, hwf', hc', ?_, ?_, ?_, ?_, ?_, ?_⟩
      · intro j hj
        rw [hpres' j (by omega), hcont3 j, hcont2ne j (by omega),
          hcontne1 j (by omega)]
      · intro j hj1 hj2
        by_cases hji : j = i
        · subst hji
          rw [hpres' j (by omega), hcont3 j, hcont2i]
          rw [hdata]
        · rw [hwritten' j (by omega) (by omega), hcont3 j,
            hcont2ne j hji, hcontne1 j hji]
      · rw [hpos', show i + 1 + r = i + (r + 1) from by omega]
      · rw [hsz', hsz3']
      · rw [hmsg', hmsg3]
        exact hmsg1
      · intro k
        rw [hkeys' k, hbl3]
        simp only []
        rw [hkeys1 k]
        constructor
        · rintro ((h | h) | h)
          · exact Or.inl h
          · exact Or.inr (by omega)
          · exact Or.inr (by omega)
        · rintro (h | h)
          · exact Or.inl (Or.inl h)
          · by_cases hki : k = i
            · exact Or.inl (Or.inr hki)
            · exact Or.inr (by omega)

/-- `node.seek(offset); node.write(buf)` under the invariants: the write
succeeds, grows the size to `max size (offset+|buf|)`, splices the buffer
across blocks `offset/B .. (offset+|buf|)/B`, and allocates exactly those
block indices. -/
theorem fileWriteAt_spec {f : FileSt} {c : Conn} (o n : Nat) (buf : Bytes)
    (hn : buf.length = n) (hf : FileWF f c) (hc : ConnWF c) :
    ∃ f' c',
      fileWriteAt f c o buf = (.ok (), f', c')
      ∧ FileWF f' c' ∧ ConnWF c'
      ∧ f'.size = max f.size (o + n)
      ∧ f'.msg = f.msg
      ∧ (∀ j, o / FS_BLOCK_SIZE ≤ j → j ≤ (o + n) / FS_BLOCK_SIZE →
          blockContent f' c' j =
            some (spliceAt ((blockContent f c j).getD []) (boff o n j)
              ((buf.drop (wo o n j)).take (bws o n j))))
      ∧ (∀ j, j < o / FS_BLOCK_SIZE ∨ (o + n) / FS_BLOCK_SIZE < j →
          blockContent f' c' j = blockContent f c j)
      ∧ (∀ k, (f'.blocks.lookup k).isSome ↔
          (f.blocks.lookup k).isSome ∨
            (o / FS_BLOCK_SIZE ≤ k ∧ k ≤ (o + n) / FS_BLOCK_SIZE)) := by
  have hdivle : o / FS_BLOCK_SIZE ≤ (o + n) / FS_BLOCK_SIZE :=
    Nat.div_le_div_right (by omega)
  obtain ⟨f1, c1, hseek, hwf1, hc1, hcont1, hbl1, hpos1, hsz1, hmsg1,
    hdirty1, hsup1⟩ := seek_spec o .set hf hc
  have hpos1' : f1.pos = o := hpos1
  unfold fileWriteAt
  rw [hseek]
  simp only []
  unfold FileSt.write
  simp only []
  rw [hpos1', hn, hsz1]
  by_cases hg : o + n > f.size
  · -- the write grows the file: `truncate(pos + size)` completes cleanly
    rw [if_pos hg]
    obtain ⟨v1, v2, v3, v4, v5, v6, v7, v8, v9, v10⟩ := hwf1
    have htr := truncate_nodelete_spec (f := f1) (c := c1) (o + n)
      (fun p hp => le_trans (v10 p hp)
        (by rw [hsz1]; exact Nat.div_le_div_right (by omega)))
    rw [htr]
    simp only []
    rw [if_neg Bool.false_ne_true]
    rw [hpos1']
    have hwf2 : FileWF { f1 with size := o + n, dirty := true, pos := o } c1 := by
      refine ⟨v1, v2, v3, v4, v5, v6, v7, v8, v9, ?_⟩
      intro p hp
      exact le_trans (v10 p hp)
        (by rw [hsz1]; exact Nat.div_le_div_right (show f.size ≤ o + n by omega))
    have hbc2 : ∀ j,
        blockContent { f1 with size := o + n, dirty := true, pos := o } c1 j
        = blockContent f1 c1 j := fun j => rfl
    obtain ⟨f', c', heq, hwf', hc', hpres', hwritten', hpos', hsz', hmsg',
      hkeys'⟩ := writeGo_spec o n buf hn
        ((o + n) / FS_BLOCK_SIZE + 1 - o / FS_BLOCK_SIZE) (o / FS_BLOCK_SIZE)
        { f1 with size := o + n, dirty := true, pos := o } c1 hwf2 hc1 (le_refl _)
        (by omega) (Nat.le_refl _) (by rw [wo_start o n, Nat.add_zero])
    rw [wo_start o n] at heq
    refine ⟨f', c', heq, hwf', hc', ?_, ?_, ?_, ?_, ?_⟩
    · have hsz'' : f'.size = o + n := hsz'
      rw [hsz'']
      omega
    · rw [hmsg']
      exact hmsg1
    · intro j hj1 hj2
      rw [hwritten' j hj1 (by omega), hbc2 j, hcont1 j]
    · intro j hj
      rw [hpres' j (by omega), hbc2 j, hcont1 j]
    · intro k
      rw [hkeys' k]
      simp only []
      rw [hbl1]
      constructor
      · rintro (h | ⟨h1, h2⟩)
        · exact Or.inl h
        · exact Or.inr ⟨h1, by omega⟩
      · rintro (h | ⟨h1, h2⟩)
        · exact Or.inl h
        · exact Or.inr ⟨h1, by omega⟩
  · -- no growth needed: the data fits in the current size
    rw [if_neg hg]
    simp only []
    rw [if_neg Bool.false_ne_true]
    rw [hpos1']
    obtain ⟨f', c', heq, hwf', hc', hpres', hwritten', hpos', hsz', hmsg',
      hkeys'⟩ := writeGo_spec o n buf hn
        ((o + n) / FS_BLOCK_SIZE + 1 - o / FS_BLOCK_SIZE) (o / FS_BLOCK_SIZE)
        f1 c1 hwf1 hc1 (le_refl _)
        (by omega) (by rw [hsz1]; omega)
        (by rw [wo_start o n, Nat.add_zero]; exact hpos1')
    rw [wo_start o n] at heq
    refine ⟨f', c', heq, hwf', hc', ?_, ?_, ?_, ?_, ?_⟩
    · rw [hsz', hsz1]
      omega
    · rw [hmsg']
      exact hmsg1
    · intro j hj1 hj2
      rw [hwritten' j hj1 (by omega), hcont1 j]
    · intro j hj
      rw [hpres' j (by omega), hcont1 j]
    · intro k
      rw [hkeys' k, hbl1]
      constructor
      · rintro (h | ⟨h1, h2⟩)
        · exact Or.inl h
        · exact Or.inr ⟨h1, by omega⟩
      · rintro (h | ⟨h1, h2⟩)
        · exact Or.inl h
        · exact Or.inr ⟨h1, by omega⟩

/-- The read loop (`File.read`'s block loop): with the cursor at
`o + wo o n i` and `acc` holding the first `wo o n i` bytes, the loop
returns `acc` extended with each visited block's slice, and leaves every
block's logical content unchanged. -/
theorem readGo_spec (o n : Nat) :
    ∀ (r i : Nat) (f : FileSt) (c : Conn) (acc : Bytes),
    FileWF f c → ConnWF c →
    o / FS_BLOCK_SIZE ≤ i →
    acc.length = wo o n i →
    f.pos = o + wo o n i →
    (∀ j, i ≤ j → j < i + r →
        ∃ d, blockContent f c j = some d
          ∧ boff o n j + bws o n j ≤ d.length) →
    ∃ f' c',
      f.readGo c n (List.range' i r) acc =
        (.ok (acc ++ ((List.range' i r).map (fun j =>
          (((blockContent f c j).getD []).drop (boff o n j)).take
            (bws o n j))).flatten), f', c')
      ∧ FileWF f' c' ∧ ConnWF c'
      ∧ (∀ j, blockContent f' c' j = blockContent f c j) := by
  intro r
  induction r with
  | zero =>
      intro i f c acc hf hc hi hacc hpos hblocks
      refine ⟨f, c, ?_, hf, hc, fun j => rfl⟩
      rw [show List.range' i 0 = ([] : List Nat) from rfl]
      simp only [List.map_nil, List.flatten_nil, List.append_nil]
      rfl
  | succ r ih =>
      intro i f c acc hf hc hi hacc hpos hblocks
      obtain ⟨d, hd, hlen⟩ := hblocks i (le_refl i) (by omega)
      obtain ⟨m, f1, c1, hopen, hdata, hwf1, hc1, hcont1, hbl1, hpos1,
        hsz1, hmsg1, hdirty1, hsup1, hres1, hresne1⟩ :=
        openBlock_mem_spec hf hc hd
      rw [List.range'_succ]
      unfold FileSt.readGo
      simp only []
      rw [hopen]
      simp only []
      rw [hpos, hacc]
      rw [show (o + wo o n i) % FS_BLOCK_SIZE = boff o n i from rfl]
      rw [bws_clamp_read o n i]
      rw [msg_read_at m (boff o n i) (bws o n i) (by rw [hdata]; exact hlen)]
      simp only []
      obtain ⟨hwf2, hcont2⟩ := writeback_clean_spec hwf1 hres1
        { m with pos := boff o n i + bws o n i } rfl rfl rfl
      obtain ⟨f3, c3, hseek, hwf3, hc3, hcont3, hbl3, hpos3, hsz3, hmsg3,
        hdirty3, hsup3⟩ := seek_spec (bws o n i) .cur hwf2 hc1
      rw [hseek]
      simp only []
      have hchunklen : ((m.data.drop (boff o n i)).take (bws o n i)).length
          = bws o n i := by
        rw [List.length_take, List.length_drop, hdata]
        omega
      have hpos3' : f3.pos = o + wo o n (i + 1) := by
        rw [hpos3]
        simp only []
        rw [hpos1, hpos, ← wo_step o n i hi]
        omega
      have hacc' : (acc ++ (m.data.drop (boff o n i)).take (bws o n i)).length
          = wo o n (i + 1) := by
        rw [List.length_append, hacc, hchunklen, wo_step o n i hi]
      have hblocks3 : ∀ j, i + 1 ≤ j → j < i + 1 + r →
          ∃ dj, blockContent f3 c3 j = some dj
            ∧ boff o n j + bws o n j ≤ dj.length := by
        intro j hj1 hj2
        obtain ⟨dj, hdj, hlenj⟩ := hblocks j (by omega) (by omega)
        exact ⟨dj, by rw [hcont3 j, hcont2 j, hcont1 j]; exact hdj, hlenj⟩
      obtain ⟨f', c', heq, hwf', hc', hcont'⟩ := ih (i + 1) f3 c3
        (acc ++ (m.data.drop (boff o n i)).take (bws o n i))
        hwf3 hc3 (by omega) hacc' hpos3' hblocks3
      rw [heq]
      refine ⟨f', c', ?_, hwf', hc', ?_⟩
      · have hmap : (List.range' (i + 1) r).map (fun j =>
            (((blockContent f3 c3 j).getD []).drop (boff o n j)).take
              (bws o n j))
            = (List.range' (i + 1) r).map (fun j =>
            (((blockContent f c j).getD []).drop (boff o n j)).take
              (bws o n j)) := by
          apply List.map_congr_left
          intro j _
          rw [hcont3 j, hcont2 j, hcont1 j]
        rw [hmap, List.map_cons, List.flatten_cons, ← List.append_assoc]
        rw [hd]
        rw [show (some d).getD [] = d from rfl]
        rw [hdata]
      · intro j
        rw [hcont' j, hcont3 j, hcont2 j, hcont1 j]

/-- Concatenating the per-block buffer chunks of a transfer reassembles the
contiguous buffer slice. -/
theorem chunks_join (buf : Bytes) (o n : Nat) :
    ∀ (r i : Nat), o / FS_BLOCK_SIZE ≤ i →
    ((List.range' i r).map (fun j =>
        (buf.drop (wo o n j)).take (bws o n j))).flatten
      = (buf.drop (wo o n i)).take (wo o n (i + r) - wo o n i) := by
  intro r
  induction r with
  | zero =>
      intro i hi
      rw [show List.range' i 0 = ([] : List Nat) from rfl]
      simp only [List.map_nil, List.flatten_nil, Nat.add_zero, Nat.sub_self,
        List.take_zero]
  | succ r ih =>
      intro i hi
      rw [List.range'_succ, List.map_cons, List.flatten_cons,
        ih (i + 1) (by omega)]
      have hstep := wo_step o n i hi
      have hmono := wo_mono o n (show i + 1 ≤ i + 1 + r by omega)
      have hkey : wo o n (i + (r + 1)) - wo o n i
          = bws o n i + (wo o n (i + 1 + r) - wo o n (i + 1)) := by
        rw [show i + (r + 1) = i + 1 + r from by omega]
        omega
      rw [hkey, List.take_add]
      congr 1
      rw [List.drop_drop]
      congr 2
      omega

/-- `node.seek(offset); node.read(size)` under the invariants, with the
requested range inside the file and every covered block long enough: the
read returns the per-block slices in order and changes no content. -/
theorem fileReadAt_spec {f : FileSt} {c : Conn} (o n : Nat)
    (hf : FileWF f c) (hc : ConnWF c) (hsz : o + n ≤ f.size)
    (hblocks : ∀ j, o / FS_BLOCK_SIZE ≤ j → j ≤ (o + n) / FS_BLOCK_SIZE →
        ∃ d, blockContent f c j = some d
          ∧ boff o n j + bws o n j ≤ d.length) :
    ∃ f' c',
      fileReadAt f c o n =
        (.ok (((List.range' (o / FS_BLOCK_SIZE)
            ((o + n) / FS_BLOCK_SIZE + 1 - o / FS_BLOCK_SIZE)).map (fun j =>
          (((blockContent f c j).getD []).drop (boff o n j)).take
            (bws o n j))).flatten), f', c')
      ∧ FileWF f' c' ∧ ConnWF c'
      ∧ (∀ j, blockContent f' c' j = blockContent f c j) := by
  have hdivle : o / FS_BLOCK_SIZE ≤ (o + n) / FS_BLOCK_SIZE :=
    Nat.div_le_div_right (by omega)
  obtain ⟨f1, c1, hseek, hwf1, hc1, hcont1, hbl1, hpos1, hsz1, hmsg1,
    hdirty1, hsup1⟩ := seek_spec o .set hf hc
  have hpos1' : f1.pos = o := hpos1
  unfold fileReadAt
  rw [hseek]
  simp only []
  unfold FileSt.read
  simp only []
  rw [hpos1', hsz1]
  rw [if_neg (by omega)]
  rw [show (((o : Nat) : Int) + ((n : Nat) : Int)).toNat = o + n from by omega]
  rw [Int.toNat_natCast]
  have hblocks1 : ∀ j, o / FS_BLOCK_SIZE ≤ j →
      j < o / FS_BLOCK_SIZE + ((o + n) / FS_BLOCK_SIZE + 1 - o / FS_BLOCK_SIZE) →
      ∃ d, blockContent f1 c1 j = some d
        ∧ boff o n j + bws o n j ≤ d.length := by
    intro j hj1 hj2
    obtain ⟨d, hd, hlen⟩ := hblocks j hj1 (by omega)
    exact ⟨d, by rw [hcont1 j]; exact hd, hlen⟩
  obtain ⟨f', c', heq, hwf', hc', hcont'⟩ := readGo_spec o n
    ((o + n) / FS_BLOCK_SIZE + 1 - o / FS_BLOCK_SIZE) (o / FS_BLOCK_SIZE)
    f1 c1 [] hwf1 hc1 (le_refl _) (by rw [wo_start o n]; rfl)
    (by rw [wo_start o n, Nat.add_zero]; exact hpos1') hblocks1
  rw [heq]
  refine ⟨f', c', ?_, hwf', hc', fun j => by rw [hcont' j, hcont1 j]⟩
  rw [List.nil_append]
  have hmap : (List.range' (o / FS_BLOCK_SIZE)
      ((o + n) / FS_BLOCK_SIZE + 1 - o / FS_BLOCK_SIZE)).map (fun j =>
        (((blockContent f1 c1 j).getD []).drop (boff o n j)).take (bws o n j))
      = (List.range' (o / FS_BLOCK_SIZE)
      ((o + n) / FS_BLOCK_SIZE + 1 - o / FS_BLOCK_SIZE)).map (fun j =>
        (((blockContent f c j).getD []).drop (boff o n j)).take (bws o n j)) := by
    apply List.map_congr_left
    intro j _
    rw [hcont1 j]
  rw [hmap]

/-- Write-then-read round trip at the `File` layer: `seek o; write buf`
then `seek o; read |buf|` returns `buf`, and the write allocates exactly
the block indices `o/B .. (o+|buf|)/B`. -/
theorem fileWriteAt_roundtrip {f : FileSt} {c : Conn} (o n : Nat)
    (buf : Bytes) (hn : buf.length = n) (hf : FileWF f c) (hc : ConnWF c) :
    ∃ f' c',
      fileWriteAt f c o buf = (.ok (), f', c')
      ∧ FileWF f' c' ∧ ConnWF c'
      ∧ f'.size = max f.size (o + n)
      ∧ f'.msg = f.msg
      ∧ (∀ k, (f'.blocks.lookup k).isSome ↔
          (f.blocks.lookup k).isSome ∨
            (o / FS_BLOCK_SIZE ≤ k ∧ k ≤ (o + n) / FS_BLOCK_SIZE))
      ∧ (∀ j, o / FS_BLOCK_SIZE ≤ j → j ≤ (o + n) / FS_BLOCK_SIZE →
          blockContent f' c' j =
            some (spliceAt ((blockContent f c j).getD []) (boff o n j)
              ((buf.drop (wo o n j)).take (bws o n j))))
      ∧ ∃ f'' c'', fileReadAt f' c' o n = (.ok buf, f'', c'') := by
  have hdivle : o / FS_BLOCK_SIZE ≤ (o + n) / FS_BLOCK_SIZE :=
    Nat.div_le_div_right (by omega)
  obtain ⟨f', c', heqw, hwf', hc', hsz', hmsg', hwritten', hpres', hkeys'⟩ :=
    fileWriteAt_spec o n buf hn hf hc
  refine ⟨f', c', heqw, hwf', hc', hsz', hmsg', hkeys', hwritten', ?_⟩
  have hblocks : ∀ j, o / FS_BLOCK_SIZE ≤ j → j ≤ (o + n) / FS_BLOCK_SIZE →
      ∃ d, blockContent f' c' j = some d
        ∧ boff o n j + bws o n j ≤ d.length := by
    intro j hj1 hj2
    refine ⟨_, hwritten' j hj1 hj2, ?_⟩
    rw [spliceAt_length, chunk_length buf o n j hn]
    omega
  obtain ⟨f'', c'', heqr, hwf'', hc'', hcont''⟩ :=
    fileReadAt_spec o n hwf' hc' (by rw [hsz']; omega) hblocks
  refine ⟨f'', c'', ?_⟩
  rw [heqr]
  have hmap : (List.range' (o / FS_BLOCK_SIZE)
      ((o + n) / FS_BLOCK_SIZE + 1 - o / FS_BLOCK_SIZE)).map (fun j =>
        (((blockContent f' c' j).getD []).drop (boff o n j)).take (bws o n j))
      = (List.range' (o / FS_BLOCK_SIZE)
      ((o + n) / FS_BLOCK_SIZE + 1 - o / FS_BLOCK_SIZE)).map (fun j =>
        (buf.drop (wo o n j)).take (bws o n j)) := by
    apply List.map_congr_left
    intro j hj
    rw [List.mem_range'_1] at hj
    rw [hwritten' j hj.1 (by omega)]
    rw [show ∀ d : Bytes, (some d).getD [] = d from fun d => rfl]
    have hs := spliceAt_slice ((blockContent f c j).getD []) (boff o n j)
      ((buf.drop (wo o n j)).take (bws o n j))
    rw [chunk_length buf o n j hn] at hs
    rw [hs]
  rw [hmap, chunks_join buf o n _ _ (le_refl _)]
  rw [show o / FS_BLOCK_SIZE +
      ((o + n) / FS_BLOCK_SIZE + 1 - o / FS_BLOCK_SIZE)
      = (o + n) / FS_BLOCK_SIZE + 1 from by omega]
  rw [wo_final o n, wo_start o n, Nat.sub_zero, List.drop_zero, ← hn,
    List.take_length]

/-! ## Cache-resident path resolution -/

/-- Every cached node is filed under its own Message name (`open_node`
caches the node under the name it just opened). -/
def NodesKeyed (fs : Fs) : Prop :=
  ∀ p ∈ fs.openNodes, (p.2).name = p.1

instance (fs : Fs) : Decidable (NodesKeyed fs) := by
  unfold NodesKeyed
  infer_instance

/-- The `get_node_by_path` walk restricted to cache hits: follow
`get_child_by_name` through resident directories; `none` when any step
would have to go to the mail store. -/
def walkKeys (fs : Fs) (cur : Node) : List Bytes → Option Node
  | [] => some cur
  | part :: rest =>
      if part.isEmpty then walkKeys fs cur rest
      else
        match cur with
        | .dir d =>
            match d.getChildByName part with
            | none => none
            | some key =>
                match fs.openNodes.lookup key with
                | none => none
                | some child => walkKeys fs child rest
        | _ => some cur

/-- The node a path reaches purely through the open-node cache. -/
def cachedNodeAt (fs : Fs) (path : Bytes) : Option Node :=
  match fs.openNodes.lookup ROOT with
  | none => none
  | some rt =>
      if path = [47] then some rt else walkKeys fs rt (pathParts path)

theorem openNode_hit {fs : Fs} {k : Nat} {nd : Node}
    (h : fs.openNodes.lookup k = some nd) :
    fs.openNode k = (.ok (some nd), fs) := by
  unfold Fs.openNode
  rw [h]

/-- A pure cache walk is exactly what `resolve` computes, with no state
change. -/
theorem walkKeys_resolve (fs : Fs) :
    ∀ (parts : List Bytes) (cur nd : Node),
    walkKeys fs cur parts = some nd →
    fs.resolveParts (some cur) parts = (.ok (some nd), fs) := by
  intro parts
  induction parts with
  | nil =>
      intro cur nd h
      cases h
      rfl
  | cons part rest ih =>
      intro cur nd h
      unfold walkKeys at h
      unfold Fs.resolveParts
      by_cases hemp : part.isEmpty
      · rw [if_pos hemp] at h
        rw [if_pos hemp]
        exact ih cur nd h
      · rw [if_neg hemp] at h
        rw [if_neg hemp]
        cases cur with
        | file g =>
            simp only [] at h
            cases h
            rfl
        | dir d =>
            simp only [] at h ⊢
            cases hch : d.getChildByName part with
            | none =>
                simp only [hch] at h
                cases h
            | some key =>
                simp only [hch] at h ⊢
                cases hlk : fs.openNodes.lookup key with
                | none =>
                    simp only [hlk] at h
                    cases h
                | some child =>
                    simp only [hlk] at h
                    rw [openNode_hit hlk]
                    simp only []
                    exact ih child nd h

/-- A cache walk starting at a file returns that file. -/
theorem walkKeys_file (fs : Fs) (g : FileSt) :
    ∀ parts, walkKeys fs (.file g) parts = some (.file g) := by
  intro parts
  induction parts with
  | nil => rfl
  | cons part rest ih =>
      unfold walkKeys
      by_cases hemp : part.isEmpty
      · rw [if_pos hemp]
        exact ih
      · rw [if_neg hemp]

/-- A cache walk from a directory that ends at a file found that file in
the cache, under its own name. -/
theorem walkKeys_dir_file {fs : Fs} (hkeyed : NodesKeyed fs) :
    ∀ (parts : List Bytes) (d : DirSt) (g : FileSt),
    walkKeys fs (.dir d) parts = some (.file g) →
    fs.openNodes.lookup g.msg.name = some (.file g) := by
  intro parts
  induction parts with
  | nil =>
      intro d g h
      unfold walkKeys at h
      simp at h
  | cons part rest ih =>
      intro d g h
      unfold walkKeys at h
      by_cases hemp : part.isEmpty
      · rw [if_pos hemp] at h
        exact ih d g h
      · rw [if_neg hemp] at h
        simp only [] at h
        cases hch : d.getChildByName part with
        | none =>
            simp only [hch] at h
            cases h
        | some key =>
            simp only [hch] at h
            cases hlk : fs.openNodes.lookup key with
            | none =>
                simp only [hlk] at h
                cases h
            | some child =>
                simp only [hlk] at h
                cases child with
                | dir d2 => exact ih d2 g h
                | file g2 =>
                    rw [walkKeys_file fs g2 rest] at h
                    have hg : g2 = g := by
                      have h2 := Option.some.inj h
                      cases h2
                      rfl
                    subst hg
                    have hk := hkeyed (key, Node.file g2)
                      (lookup_some_mem hlk)
                    simp only [Node.name] at hk
                    rw [hk]
                    exact hlk

/-- Rebinding the resolved file's cache entry (to any non-directory node)
reroutes a cache walk that ended at that file, and only that walk step. -/
theorem walkKeys_update {fs fs' : Fs} (hkeyed : NodesKeyed fs)
    {fdat : FileSt} (nf' : Node) (hnf' : ∀ d, nf' ≠ .dir d)
    (hU : fs'.openNodes = assocSet fs.openNodes fdat.msg.name nf') :
    ∀ (parts : List Bytes) (cur curU : Node),
    ((cur = .file fdat ∧ curU = nf') ∨ (cur = curU ∧ cur ≠ .file fdat)) →
    walkKeys fs cur parts = some (.file fdat) →
    walkKeys fs' curU parts = some nf' := by
  intro parts
  induction parts with
  | nil =>
      intro cur curU hpair h
      unfold walkKeys at h
      have hcur : cur = .file fdat := Option.some.inj h
      rcases hpair with ⟨h1, h2⟩ | ⟨h1, h2⟩
      · rw [h2]
        rfl
      · exact absurd hcur h2
  | cons part rest ih =>
      intro cur curU hpair h
      unfold walkKeys at h ⊢
      by_cases hemp : part.isEmpty
      · rw [if_pos hemp] at h ⊢
        exact ih cur curU hpair h
      · rw [if_neg hemp] at h ⊢
        rcases hpair with ⟨h1, h2⟩ | ⟨h1, h2⟩
        · subst h1
          rw [h2]
          cases hn : nf' with
          | dir d => exact absurd hn (hnf' d)
          | file g => rfl
        · subst h1
          cases cur with
          | file g =>
              simp only [] at h
              exact absurd (Option.some.inj h) h2
          | dir d =>
              simp only [] at h ⊢
              cases hch : d.getChildByName part with
              | none =>
                  simp only [hch] at h
                  cases h
              | some key =>
                  simp only [hch] at h ⊢
                  cases hlk : fs.openNodes.lookup key with
                  | none =>
                      simp only [hlk] at h
                      cases h
                  | some child =>
                      simp only [hlk] at h
                      by_cases hkey : key = fdat.msg.name
                      · have hchild : child = .file fdat := by
                          cases child with
                          | file g2 =>
                              rw [walkKeys_file fs g2 rest] at h
                              have h3 := Option.some.inj h
                              rw [h3]
                          | dir d2 =>
                              have hlf := walkKeys_dir_file hkeyed rest d2
                                fdat h
                              rw [← hkey, hlk] at hlf
                              exact Node.noConfusion (Option.some.inj hlf)
                        rw [hU, hkey, assocSet_lookup_self]
                        simp only []
                        subst hchild
                        exact ih (.file fdat) nf' (Or.inl ⟨rfl, rfl⟩) h
                      · rw [hU, assocSet_lookup_ne _ _ hkey, hlk]
                        simp only []
                        have hchildne : child ≠ .file fdat := by
                          intro he
                          have hk := hkeyed (key, child) (lookup_some_mem hlk)
                          rw [he] at hk
                          simp only [Node.name] at hk
                          exact hkey hk.symm
                        exact ih child child (Or.inr ⟨rfl, hchildne⟩) h

/-- A cache-resident resolution is what `get_node_by_path` returns, with
the filesystem state unchanged. -/
theorem cachedNodeAt_resolve {fs : Fs} {path : Bytes} {nd : Node}
    (h : cachedNodeAt fs path = some nd) :
    fs.getNodeByPath path = (.ok (some nd), fs) := by
  unfold cachedNodeAt at h
  cases hrt : fs.openNodes.lookup ROOT with
  | none =>
      rw [hrt] at h
      cases h
  | some rt =>
      rw [hrt] at h
      simp only [] at h
      unfold Fs.getNodeByPath
      by_cases hp : path = [47]
      · rw [if_pos hp] at h
        rw [if_pos hp]
        cases h
        exact openNode_hit hrt
      · rw [if_neg hp] at h
        rw [if_neg hp]
        rw [openNode_hit hrt]
        simp only []
        exact walkKeys_resolve fs (pathParts path) rt nd h

/-- Rebinding the resolved file's entry reroutes a cache-resident
resolution to the new node. -/
theorem cachedNodeAt_update {fs fs' : Fs} {path : Bytes} {fdat g : FileSt}
    (hkeyed : NodesKeyed fs)
    (h : cachedNodeAt fs path = some (.file fdat))
    (hU : fs'.openNodes = assocSet fs.openNodes fdat.msg.name (.file g)) :
    cachedNodeAt fs' path = some (.file g) := by
  unfold cachedNodeAt at h ⊢
  cases hrt : fs.openNodes.lookup ROOT with
  | none =>
      rw [hrt] at h
      cases h
  | some rt =>
      rw [hrt] at h
      simp only [] at h
      by_cases hp : path = [47]
      · rw [if_pos hp] at h
        have hroot : rt = .file fdat := Option.some.inj h
        subst hroot
        have hname := hkeyed (ROOT, Node.file fdat) (lookup_some_mem hrt)
        simp only [Node.name] at hname
        rw [hU, ← hname, assocSet_lookup_self]
        simp only []
        rw [if_pos hp]
      · rw [if_neg hp] at h
        cases rt with
        | file g2 =>
            rw [walkKeys_file fs g2 (pathParts path)] at h
            have hg : g2 = fdat := by
              have h2 := Option.some.inj h
              cases h2
              rfl
            subst hg
            have hname := hkeyed (ROOT, Node.file g2) (lookup_some_mem hrt)
            simp only [Node.name] at hname
            rw [hU, ← hname, assocSet_lookup_self]
            simp only []
            rw [if_neg hp]
            exact walkKeys_file fs' g (pathParts path)
        | dir d =>
            have hlf := walkKeys_dir_file hkeyed (pathParts path) d fdat h
            have hne : ROOT ≠ fdat.msg.name := by
              intro he
              rw [← he, hrt] at hlf
              exact Node.noConfusion (Option.some.inj hlf)
            rw [hU, assocSet_lookup_ne _ _ hne, hrt]
            simp only []
            rw [if_neg hp]
            exact walkKeys_update hkeyed (.file g) (fun d2 => by simp) hU
              (pathParts path) (.dir d) (.dir d) (Or.inr ⟨rfl, by simp⟩) h

/-- C1 (amended): on a well-formed file state (no stale block index left
behind by the `truncate` bug) reached through a cache-resident path, the
`write` handler stores the buffer and returns its length, and an immediate
`read` of the same range through the same path returns exactly those
bytes. -/
theorem c1_write_read_roundtrip (fs : Fs) (path : Bytes) (fdat : FileSt)
    (b : Bytes) (o : Nat)
    (hkeyed : NodesKeyed fs)
    (hres : cachedNodeAt fs path = some (.file fdat))
    (hf : FileWF fdat fs.conn) (hc : ConnWF fs.conn) :
    ∃ fs1 fs2, fs.write path b o = (.num b.length, fs1)
      ∧ fs1.read path b.length o = (.buf b, fs2) := by
  obtain ⟨f', c', heqw, hwf', hc', hsz', hmsg', hkeys', hwritten',
    f'', c'', heqr⟩ := fileWriteAt_roundtrip o b.length b rfl hf hc
  unfold Fs.write
  rw [cachedNodeAt_resolve hres]
  simp only []
  rw [heqw]
  simp only []
  have hU : (Fs.mk (assocSet fs.openNodes f'.msg.name (.file f')) c').openNodes
      = assocSet fs.openNodes fdat.msg.name (.file f') := by
    simp only []
    rw [hmsg']
  have hres1 := cachedNodeAt_update hkeyed hres hU
  have hread : ∃ fs2,
      (Fs.mk (assocSet fs.openNodes f'.msg.name (.file f')) c').read path
        b.length o = (.buf b, fs2) := by
    unfold Fs.read
    rw [cachedNodeAt_resolve hres1]
    simp only []
    rw [heqr]
    exact ⟨_, rfl⟩
  obtain ⟨fs2, hread⟩ := hread
  exact ⟨_, fs2, rfl, hread⟩

theorem c1_write_read_roundtrip_witness :
    NodesKeyed fs0
    ∧ cachedNodeAt fs0 pathX = some (.file fileX)
    ∧ FileWF fileX fs0.conn ∧ ConnWF fs0.conn
    ∧ ∃ fs1 fs2, fs0.write pathX [65] 0 = (.num ([65] : Bytes).length, fs1)
        ∧ fs1.read pathX ([65] : Bytes).length 0 = (.buf [65], fs2) :=
  ⟨by decide, by decide, by decide, by decide,
    c1_write_read_roundtrip fs0 pathX fileX [65] 0 (by decide) (by decide)
      (by decide) (by decide)⟩

/-- C5 (amended): every write through `seek`/`write` on a well-formed
block file succeeds, reads back exactly, and allocates precisely the block
indices `offset/B .. (offset+|buf|)/B` it did not already hold — one more
than the byte range touches whenever the write ends exactly on a block
boundary. -/
theorem c5_write_allocation (f : FileSt) (c : Conn) (o : Nat) (b : Bytes)
    (hf : FileWF f c) (hc : ConnWF c) :
    ∃ f' c', fileWriteAt f c o b = (.ok (), f', c')
      ∧ (∀ k, (f'.blocks.lookup k).isSome ↔
          (f.blocks.lookup k).isSome ∨
            (o / FS_BLOCK_SIZE ≤ k ∧ k ≤ (o + b.length) / FS_BLOCK_SIZE))
      ∧ ∃ f'' c'', fileReadAt f' c' o b.length = (.ok b, f'', c'') := by
  obtain ⟨f', c', heqw, hwf', hc', hsz', hmsg', hkeys', hwritten', hrt⟩ :=
    fileWriteAt_roundtrip o b.length b rfl hf hc
  exact ⟨f', c', heqw, hkeys', hrt⟩

theorem c5_write_allocation_witness :
    FileWF fileX sampleConn ∧ ConnWF sampleConn
    ∧ ∃ f' c', fileWriteAt fileX sampleConn 0 [65] = (.ok (), f', c')
      ∧ (∀ k, (f'.blocks.lookup k).isSome ↔
          (fileX.blocks.lookup k).isSome ∨
            (0 / FS_BLOCK_SIZE ≤ k ∧
              k ≤ (0 + ([65] : Bytes).length) / FS_BLOCK_SIZE))
      ∧ ∃ f'' c'',
          fileReadAt f' c' 0 ([65] : Bytes).length = (.ok [65], f'', c'') :=
  ⟨by decide, by decide,
    c5_write_allocation fileX sampleConn 0 [65] (by decide) (by decide)⟩

/-- C4 (amended): when a write lands strictly past the current end but
within the same block as the current end (and that final block holds no
bytes past `size % B`), reading back the gap returns `'.'` (0x2E)
placeholder bytes — the padding `Message.truncate`/`Message.write` insert
inside the written block.  (For gaps spanning whole untouched blocks the
claim fails: see the counterexample.) -/
theorem c4_gap_reads_dots (fs : Fs) (path : Bytes) (fdat : FileSt)
    (b : Bytes) (o : Nat)
    (hkeyed : NodesKeyed fs)
    (hres : cachedNodeAt fs path = some (.file fdat))
    (hf : FileWF fdat fs.conn) (hc : ConnWF fs.conn)
    (hgap : fdat.size < o)
    (hsame : fdat.size / FS_BLOCK_SIZE = o / FS_BLOCK_SIZE)
    (hbase : ((blockContent fdat fs.conn
        (fdat.size / FS_BLOCK_SIZE)).getD []).length
        ≤ fdat.size % FS_BLOCK_SIZE) :
    ∃ fs1 fs2, fs.write path b o = (.num b.length, fs1)
      ∧ fs1.read path (o - fdat.size) fdat.size
          = (.buf (List.replicate (o - fdat.size) 46), fs2) := by
  obtain ⟨f', c', heqw, hwf', hc', hsz', hmsg', hwritten', hpres', hkeys'⟩ :=
    fileWriteAt_spec o b.length b rfl hf hc
  have harith : fdat.size % FS_BLOCK_SIZE + (o - fdat.size)
      = o % FS_BLOCK_SIZE := by
    unfold FS_BLOCK_SIZE at hsame ⊢
    omega
  have hA : o / FS_BLOCK_SIZE ≤ fdat.size / FS_BLOCK_SIZE :=
    le_of_eq hsame.symm
  have hB : fdat.size / FS_BLOCK_SIZE ≤ (o + b.length) / FS_BLOCK_SIZE := by
    rw [hsame]
    exact Nat.div_le_div_right (by omega)
  have hboff : boff o b.length (fdat.size / FS_BLOCK_SIZE)
      = o % FS_BLOCK_SIZE := by
    rw [hsame]
    exact boff_start o b.length
  have hboffr : boff fdat.size (o - fdat.size) (fdat.size / FS_BLOCK_SIZE)
      = fdat.size % FS_BLOCK_SIZE := boff_start fdat.size (o - fdat.size)
  have hbwsr : bws fdat.size (o - fdat.size) (fdat.size / FS_BLOCK_SIZE)
      = o - fdat.size := by
    unfold FS_BLOCK_SIZE at hsame
    unfold bws boff wo FS_BLOCK_SIZE
    omega
  have hblocks2 : ∀ j, fdat.size / FS_BLOCK_SIZE ≤ j →
      j ≤ (fdat.size + (o - fdat.size)) / FS_BLOCK_SIZE →
      ∃ d, blockContent f' c' j = some d
        ∧ boff fdat.size (o - fdat.size) j
          + bws fdat.size (o - fdat.size) j ≤ d.length := by
    intro j hj1 hj2
    have hj : j = fdat.size / FS_BLOCK_SIZE := by
      rw [show fdat.size + (o - fdat.size) = o from by omega] at hj2
      omega
    subst hj
    refine ⟨_, hwritten' _ hA hB, ?_⟩
    rw [hboffr, hbwsr, spliceAt_length, chunk_length b o b.length _ rfl,
      hboff]
    omega
  obtain ⟨f'', c'', heqr, hwf'', hc'', hcont''⟩ := fileReadAt_spec
    fdat.size (o - fdat.size) hwf' hc' (by rw [hsz']; omega) hblocks2
  rw [show (fdat.size + (o - fdat.size)) / FS_BLOCK_SIZE + 1
      - fdat.size / FS_BLOCK_SIZE = 1 from by
    rw [show fdat.size + (o - fdat.size) = o from by omega, ← hsame]
    omega] at heqr
  rw [show List.range' (fdat.size / FS_BLOCK_SIZE) 1
      = [fdat.size / FS_BLOCK_SIZE] from rfl] at heqr
  rw [List.map_cons, List.map_nil, List.flatten_cons, List.flatten_nil,
    List.append_nil] at heqr
  rw [hwritten' _ hA hB] at heqr
  rw [show ∀ d : Bytes, (some d).getD [] = d from fun d => rfl] at heqr
  rw [hboff, hboffr, hbwsr] at heqr
  rw [spliceAt_dots _ _ _ hbase (le_of_eq harith) (by omega)] at heqr
  unfold Fs.write
  rw [cachedNodeAt_resolve hres]
  simp only []
  rw [heqw]
  simp only []
  have hU : (Fs.mk (assocSet fs.openNodes f'.msg.name (.file f')) c').openNodes
      = assocSet fs.openNodes fdat.msg.name (.file f') := by
    simp only []
    rw [hmsg']
  have hres1 := cachedNodeAt_update hkeyed hres hU
  have hread : ∃ fs2,
      (Fs.mk (assocSet fs.openNodes f'.msg.name (.file f')) c').read path
        (o - fdat.size) fdat.size
        = (.buf (List.replicate (o - fdat.size) 46), fs2) := by
    unfold Fs.read
    rw [cachedNodeAt_resolve hres1]
    simp only []
    rw [heqr]
    exact ⟨_, rfl⟩
  obtain ⟨fs2, hread⟩ := hread
  exact ⟨_, fs2, rfl, hread⟩

/-- A mailbox holding one block Message (subject `10`, body `"C"`). -/
def conn4 : Conn := ⟨[⟨1, 10, [67], false⟩], 2, [], 11, []⟩

/-- A one-byte file (`size = 1`) whose single block is the stored
Message `10`. -/
def fileY : FileSt :=
  { msg := ⟨5, [], false, 0⟩, ctime := 0, mtime := 0, size := 1,
    blocks := [(0, 10)], dirty := false, pos := 0, openMsgs := [] }

def rootDir4 : DirSt :=
  { msg := ⟨0, [100, 13, 10], false, 0⟩, ctime := 0, mtime := 0,
    children := [(5, strBytes "y")], dirty := false }

def fs4 : Fs := ⟨[(0, .dir rootDir4), (5, .file fileY)], conn4⟩

/-- The path `"/y"`. -/
def pathY : Bytes := [47, 121]

theorem c4_gap_reads_dots_witness :
    NodesKeyed fs4
    ∧ cachedNodeAt fs4 pathY = some (.file fileY)
    ∧ FileWF fileY fs4.conn ∧ ConnWF fs4.conn
    ∧ fileY.size < 2
    ∧ fileY.size / FS_BLOCK_SIZE = 2 / FS_BLOCK_SIZE
    ∧ ((blockContent fileY fs4.conn
        (fileY.size / FS_BLOCK_SIZE)).getD []).length
        ≤ fileY.size % FS_BLOCK_SIZE
    ∧ ∃ fs1 fs2, fs4.write pathY [65] 2 = (.num ([65] : Bytes).length, fs1)
        ∧ fs1.read pathY (2 - fileY.size) fileY.size
            = (.buf (List.replicate (2 - fileY.size) 46), fs2) :=
  ⟨by decide, by decide, by decide, by decide, by decide, by decide,
    by decide,
    c4_gap_reads_dots fs4 pathY fileY [65] 2 (by decide) (by decide)
      (by decide) (by decide) (by decide) (by decide) (by decide)⟩

/-! ## Unlink (`File.delete`, `IMAPFS.unlink`) -/

/-- Folding `Message.unlink` over a list of subjects deletes every one of
them (later unlinks cannot resurrect an earlier one) and keeps the
connection well-formed. -/
theorem unlinkFold_spec (names : List Nat) :
    ∀ (c : Conn), ConnWF c →
    ConnWF (names.foldl (fun c nm => Msg.unlink c nm) c)
    ∧ (∀ nm ∈ names,
        (names.foldl (fun c nm => Msg.unlink c nm) c).present nm = false)
    ∧ (∀ s, s ∉ names →
        (names.foldl (fun c nm => Msg.unlink c nm) c).present s
          = c.present s) := by
  induction names with
  | nil => exact fun c hc => ⟨hc, by simp, fun s _ => rfl⟩
  | cons nm t ih =>
      intro c hc
      rw [List.foldl_cons]
      obtain ⟨hwf1, hall1, hother1⟩ := ih (Msg.unlink c nm) (Conn.unlink_wf hc nm)
      refine ⟨hwf1, ?_, ?_⟩
      · intro x hx
        rcases List.mem_cons.mp hx with h | h
        · subst h
          by_cases hxin : x ∈ t
          · exact hall1 x hxin
          · rw [hother1 x hxin]
            exact Conn.unlink_present_false hc x
        · exact hall1 x h
      · intro s hs
        rw [hother1 s (fun h => hs (List.mem_cons_of_mem _ h))]
        exact Conn.unlink_present_ne hc nm
          (fun h => hs (h ▸ List.mem_cons_self _ _))

/-- `File.delete` removes every block Message and then the descriptor
Message from the live mail store. -/
theorem file_delete_spec {f : FileSt} {c : Conn} (hf : FileWF f c)
    (hc : ConnWF c) :
    ConnWF (f.delete c)
    ∧ (∀ nm ∈ f.blocks.map (·.2), (f.delete c).present nm = false)
    ∧ (f.delete c).present f.msg.name = false := by
  obtain ⟨w1, w2, w3, w4, w5, w6, w7, w8, w9, w10⟩ := hf
  unfold FileSt.delete
  have hfold : f.blocks.foldl (fun c p => Msg.unlink c p.2) c
      = (f.blocks.map (·.2)).foldl (fun c nm => Msg.unlink c nm) c := by
    rw [List.foldl_map]
  rw [hfold]
  obtain ⟨hwf1, hall, hother⟩ := unlinkFold_spec (f.blocks.map (·.2)) c hc
  refine ⟨Conn.unlink_wf hwf1 _, ?_, Conn.unlink_present_false hwf1 _⟩
  intro nm hnm
  rw [Conn.unlink_present_ne hwf1 f.msg.name (fun he => w4 (he ▸ hnm))]
  exact hall nm hnm

theorem removeChild_msg (d : DirSt) (k : Nat) :
    (d.removeChild k).msg = d.msg := by
  unfold DirSt.removeChild
  split <;> rfl

theorem removeChild_lookup (d : DirSt) (k : Nat) :
    (d.removeChild k).children.lookup k = none := by
  unfold DirSt.removeChild
  split
  · exact assocPop_lookup_self _ _
  · next h =>
      cases hl : d.children.lookup k with
      | none => rfl
      | some v => rw [hl] at h; simp at h

/-- C8: when `unlink(p)` resolves the file and its parent directory, it
deletes every block Message the file references and then its descriptor
Message from the live mail store, removes the file's entry from the parent
directory, and drops the file from the open-node cache. -/
theorem c8_unlink_deletes_blocks (fs fs1 fs2 : Fs) (path : Bytes)
    (fdat : FileSt) (parent : DirSt)
    (h1 : fs.getNodeByPath path = (.ok (some (.file fdat)), fs1))
    (h2 : fs1.getNodeByPath (getPathParent path)
        = (.ok (some (.dir parent)), fs2))
    (hf : FileWF fdat fs2.conn) (hc : ConnWF fs2.conn)
    (hcached : (fs2.openNodes.lookup fdat.msg.name).isSome)
    (hne : parent.msg.name ≠ fdat.msg.name) :
    ∃ fs', fs.unlink path = (.done, fs')
      ∧ (∀ nm ∈ fdat.blocks.map (·.2), fs'.conn.present nm = false)
      ∧ fs'.conn.present fdat.msg.name = false
      ∧ fs'.openNodes.lookup fdat.msg.name = none
      ∧ fs'.openNodes.lookup parent.msg.name
          = some (.dir (parent.removeChild fdat.msg.name))
      ∧ (parent.removeChild fdat.msg.name).children.lookup fdat.msg.name
          = none := by
  have hkey : (parent.removeChild fdat.msg.name).msg.name
      = parent.msg.name := by rw [removeChild_msg]
  obtain ⟨hdwf, hdall, hddesc⟩ := file_delete_spec hf hc
  unfold Fs.unlink
  rw [h1]
  simp only []
  rw [h2]
  simp only []
  have hcond : ((assocSet fs2.openNodes
      (parent.removeChild fdat.msg.name).msg.name
      (.dir (parent.removeChild fdat.msg.name))).lookup
        fdat.msg.name).isSome = true := by
    rw [hkey, assocSet_lookup_ne _ _ (fun he => hne he.symm)]
    exact hcached
  rw [if_pos hcond]
  refine ⟨_, rfl, ?_, ?_, ?_, ?_, removeChild_lookup parent fdat.msg.name⟩
  · intro nm hnm
    exact hdall nm hnm
  · exact hddesc
  · simp only []
    exact assocPop_lookup_self _ _
  · simp only []
    rw [assocPop_lookup_ne _ hne, hkey, assocSet_lookup_self]

/-- A mailbox holding two block Messages (subjects `10` and `11`). -/
def conn8 : Conn :=
  ⟨[⟨1, 10, [67], false⟩, ⟨2, 11, [68], false⟩], 3, [], 12, []⟩

/-- A two-block file referencing the stored Messages `10` and `11`. -/
def fileZ : FileSt :=
  { msg := ⟨5, [], false, 0⟩, ctime := 0, mtime := 0, size := 300000,
    blocks := [(0, 10), (1, 11)], dirty := false, pos := 0, openMsgs := [] }

def rootDir8 : DirSt :=
  { msg := ⟨0, [100, 13, 10], false, 0⟩, ctime := 0, mtime := 0,
    children := [(5, strBytes "z")], dirty := false }

def fs8 : Fs := ⟨[(0, .dir rootDir8), (5, .file fileZ)], conn8⟩

/-- The path `"/z"`. -/
def pathZ : Bytes := [47, 122]

theorem c8_unlink_deletes_blocks_witness :
    fs8.getNodeByPath pathZ = (.ok (some (.file fileZ)), fs8)
    ∧ fs8.getNodeByPath (getPathParent pathZ)
        = (.ok (some (.dir rootDir8)), fs8)
    ∧ FileWF fileZ fs8.conn ∧ ConnWF fs8.conn
    ∧ (fs8.openNodes.lookup fileZ.msg.name).isSome
    ∧ rootDir8.msg.name ≠ fileZ.msg.name
    ∧ ∃ fs', fs8.unlink pathZ = (.done, fs')
        ∧ (∀ nm ∈ fileZ.blocks.map (·.2), fs'.conn.present nm = false)
        ∧ fs'.conn.present fileZ.msg.name = false
        ∧ fs'.openNodes.lookup fileZ.msg.name = none
        ∧ fs'.openNodes.lookup rootDir8.msg.name
            = some (.dir (rootDir8.removeChild fileZ.msg.name))
        ∧ (rootDir8.removeChild fileZ.msg.name).children.lookup
            fileZ.msg.name = none :=
  ⟨by decide, by decide, by decide, by decide, by decide, by decide,
    c8_unlink_deletes_blocks fs8 fs8 fs8 pathZ fileZ rootDir8 (by decide)
      (by decide) (by decide) (by decide) (by decide) (by decide)⟩

end Imapfs
